import Mathlib

/-!
Verification of the `index-mem-alloc` hierarchical bitmap slot allocator.

The development is a shallow embedding of the Rust sources:
machine words (`u64`) become `Nat` values kept below `2 ^ 64`, the backing
buffer (the `u64` slice obtained by `cast_slice_mut`) becomes a `List Nat`,
and fallible operations return `Except MemoryMapError`.
-/

namespace MemAlloc

/-- Error type, translated from `MemoryMapError` in `src/lib.rs`. -/
inductive MemoryMapError where
  | InvalidOffset
  | NoAvailableSlots
  | AlignmentError
  | InsufficientMemory
  | InvalidIndex
  | IndexOutOfBounds
deriving DecidableEq, Repr

/-- Linear scan of `n` bit positions of `pattern` starting at position `lo`,
returning the first position whose bit is clear.  This models the Rust
loops `for j in lo..hi { if pattern & (1 << j) == 0 { return Ok(j); } }`
of `get_first_zero_bit.rs`, with `n = hi - lo`. -/
def scanCnt (pattern : Nat) : Nat → Nat → Except MemoryMapError Nat
  | _, 0 => .error .NoAvailableSlots
  | lo, n + 1 =>
    if pattern &&& (1 <<< lo) = 0 then .ok lo else scanCnt pattern (lo + 1) n

/-- Translation of `get_first_zero_bit` from `src/get_first_zero_bit.rs`:
a chunked short-circuit search for the lowest clear bit among the low
`bits` bits of `pattern`. -/
def get_first_zero_bit (pattern : Nat) (bits : Nat) : Except MemoryMapError Nat :=
  if bits < 33 then
    scanCnt pattern 0 bits
  else if pattern &&& 0xffffffff = 0xffffffff then
    if pattern &&& 0xffff00000000 = 0xffff00000000 then
      scanCnt pattern 48 (bits - 48)
    else
      scanCnt pattern 32 (min bits 48 - 32)
  else if pattern &&& 0xffff = 0xffff then
    scanCnt pattern 16 16
  else
    scanCnt pattern 0 16

/-- The Rust loop test `pattern & (1 << k) == 0` holds exactly when bit `k`
of `pattern` is clear. -/
theorem and_one_shift_eq_zero (pattern k : Nat) :
    pattern &&& (1 <<< k) = 0 ↔ pattern.testBit k = false := by
  rw [Nat.shiftLeft_eq, one_mul, Nat.and_two_pow]
  cases h : pattern.testBit k <;>
    simp [Nat.pos_iff_ne_zero.mp (Nat.two_pow_pos k)]

theorem scanCnt_ok {pattern lo n j : Nat} (h : scanCnt pattern lo n = .ok j) :
    lo ≤ j ∧ j < lo + n ∧ pattern.testBit j = false ∧
      ∀ k, lo ≤ k → k < j → pattern.testBit k = true := by
  induction n generalizing lo with
  | zero => simp [scanCnt] at h
  | succ n ih =>
    rw [scanCnt] at h
    by_cases hb : pattern &&& (1 <<< lo) = 0
    · rw [if_pos hb] at h
      cases h
      refine ⟨Nat.le_refl _, by omega, (and_one_shift_eq_zero pattern j).mp hb, ?_⟩
      intro k hk1 hk2
      omega
    · rw [if_neg hb] at h
      obtain ⟨h1, h2, h3, h4⟩ := ih h
      have hlo : pattern.testBit lo = true := by
        cases hbit : pattern.testBit lo
        · exact absurd ((and_one_shift_eq_zero pattern lo).mpr hbit) hb
        · rfl
      refine ⟨by omega, by omega, h3, ?_⟩
      intro k hk1 hk2
      rcases Nat.eq_or_lt_of_le hk1 with heq | hlt
      · exact heq ▸ hlo
      · exact h4 k hlt hk2

theorem scanCnt_err {pattern lo n : Nat} {e : MemoryMapError}
    (h : scanCnt pattern lo n = .error e) :
    e = .NoAvailableSlots ∧ ∀ k, lo ≤ k → k < lo + n → pattern.testBit k = true := by
  induction n generalizing lo with
  | zero =>
    rw [scanCnt] at h
    cases h
    exact ⟨rfl, fun k hk1 hk2 => by omega⟩
  | succ n ih =>
    rw [scanCnt] at h
    by_cases hb : pattern &&& (1 <<< lo) = 0
    · rw [if_pos hb] at h; cases h
    · rw [if_neg hb] at h
      obtain ⟨he, hall⟩ := ih h
      have hlo : pattern.testBit lo = true := by
        cases hbit : pattern.testBit lo
        · exact absurd ((and_one_shift_eq_zero pattern lo).mpr hbit) hb
        · rfl
      refine ⟨he, ?_⟩
      intro k hk1 hk2
      rcases Nat.eq_or_lt_of_le hk1 with heq | hlt
      · exact heq ▸ hlo
      · exact hall k hlt (by omega)

theorem scanCnt_err_of_all {pattern lo n : Nat}
    (hall : ∀ k, lo ≤ k → k < lo + n → pattern.testBit k = true) :
    scanCnt pattern lo n = .error .NoAvailableSlots := by
  induction n generalizing lo with
  | zero => rfl
  | succ n ih =>
    rw [scanCnt]
    have hbit : pattern.testBit lo = true := hall lo (Nat.le_refl _) (by omega)
    have hb : ¬ pattern &&& (1 <<< lo) = 0 := by
      intro hc
      rw [(and_one_shift_eq_zero pattern lo).mp hc] at hbit
      exact Bool.false_ne_true hbit
    rw [if_neg hb]
    exact ih fun k hk1 hk2 => hall k (by omega) (by omega)

/-- A number absorbs a mask under bitwise and exactly when it has every bit
of the mask set. -/
theorem and_mask_eq_iff (p m : Nat) :
    p &&& m = m ↔ ∀ j, m.testBit j = true → p.testBit j = true := by
  constructor
  · intro h j hj
    have := congrArg (fun x => Nat.testBit x j) h
    simp only [Nat.testBit_and] at this
    rw [hj, Bool.and_true] at this
    exact this
  · intro h
    apply Nat.eq_of_testBit_eq
    intro j
    simp only [Nat.testBit_and]
    cases hm : m.testBit j
    · simp
    · simp [h j hm]

theorem mask16_testBit (j : Nat) :
    (0xffff : Nat).testBit j = decide (j < 16) := by
  have h : (0xffff : Nat) = 2 ^ 16 - 1 := by norm_num
  rw [h, Nat.testBit_two_pow_sub_one]

theorem mask32_testBit (j : Nat) :
    (0xffffffff : Nat).testBit j = decide (j < 32) := by
  have h : (0xffffffff : Nat) = 2 ^ 32 - 1 := by norm_num
  rw [h, Nat.testBit_two_pow_sub_one]

theorem mask3247_testBit (j : Nat) :
    (0xffff00000000 : Nat).testBit j = (decide (32 ≤ j) && decide (j < 48)) := by
  have h : (0xffff00000000 : Nat) = (2 ^ 16 - 1) <<< 32 := by decide
  rw [h, Nat.testBit_shiftLeft, Nat.testBit_two_pow_sub_one]
  by_cases h1 : 32 ≤ j <;> by_cases h2 : j < 48 <;>
    simp [h1, h2] <;> omega

theorem low16_iff (p : Nat) :
    p &&& 0xffff = 0xffff ↔ ∀ j, j < 16 → p.testBit j = true := by
  rw [and_mask_eq_iff]
  constructor
  · intro h j hj
    exact h j (by rw [mask16_testBit]; simpa using hj)
  · intro h j hj
    rw [mask16_testBit] at hj
    exact h j (by simpa using hj)

theorem low32_iff (p : Nat) :
    p &&& 0xffffffff = 0xffffffff ↔ ∀ j, j < 32 → p.testBit j = true := by
  rw [and_mask_eq_iff]
  constructor
  · intro h j hj
    exact h j (by rw [mask32_testBit]; simpa using hj)
  · intro h j hj
    rw [mask32_testBit] at hj
    exact h j (by simpa using hj)

theorem mid3247_iff (p : Nat) :
    p &&& 0xffff00000000 = 0xffff00000000 ↔
      ∀ j, 32 ≤ j → j < 48 → p.testBit j = true := by
  rw [and_mask_eq_iff]
  constructor
  · intro h j hj1 hj2
    exact h j (by rw [mask3247_testBit]; simp [hj1, hj2])
  · intro h j hj
    rw [mask3247_testBit] at hj
    simp only [Bool.and_eq_true, decide_eq_true_eq] at hj
    exact h j hj.1 hj.2

/-- Success case of the kernel: the returned position is below `bits`, its
bit is clear, and every lower position has its bit set. -/
theorem gfzb_ok {pattern bits j : Nat}
    (h : get_first_zero_bit pattern bits = .ok j) :
    j < bits ∧ pattern.testBit j = false ∧
      ∀ k, k < j → pattern.testBit k = true := by
  unfold get_first_zero_bit at h
  by_cases h33 : bits < 33
  · rw [if_pos h33] at h
    obtain ⟨h1, h2, h3, h4⟩ := scanCnt_ok h
    exact ⟨by omega, h3, fun k hk => h4 k (by omega) hk⟩
  · rw [if_neg h33] at h
    by_cases hm32 : pattern &&& 0xffffffff = 0xffffffff
    · rw [if_pos hm32] at h
      have hlow32 := (low32_iff pattern).mp hm32
      by_cases hm47 : pattern &&& 0xffff00000000 = 0xffff00000000
      · rw [if_pos hm47] at h
        have hmid := (mid3247_iff pattern).mp hm47
        obtain ⟨h1, h2, h3, h4⟩ := scanCnt_ok h
        refine ⟨by omega, h3, ?_⟩
        intro k hk
        by_cases hk32 : k < 32
        · exact hlow32 k hk32
        · by_cases hk48 : k < 48
          · exact hmid k (by omega) hk48
          · exact h4 k (by omega) hk
      · rw [if_neg hm47] at h
        obtain ⟨h1, h2, h3, h4⟩ := scanCnt_ok h
        refine ⟨by omega, h3, ?_⟩
        intro k hk
        by_cases hk32 : k < 32
        · exact hlow32 k hk32
        · exact h4 k (by omega) hk
    · rw [if_neg hm32] at h
      by_cases hm16 : pattern &&& 0xffff = 0xffff
      · rw [if_pos hm16] at h
        have hlow16 := (low16_iff pattern).mp hm16
        obtain ⟨h1, h2, h3, h4⟩ := scanCnt_ok h
        refine ⟨by omega, h3, ?_⟩
        intro k hk
        by_cases hk16 : k < 16
        · exact hlow16 k hk16
        · exact h4 k (by omega) hk
      · rw [if_neg hm16] at h
        obtain ⟨h1, h2, h3, h4⟩ := scanCnt_ok h
        exact ⟨by omega, h3, fun k hk => h4 k (by omega) hk⟩

/-- Failure case of the kernel: the only error is `NoAvailableSlots`, and it
implies every bit below `bits` is set. -/
theorem gfzb_err {pattern bits : Nat} {e : MemoryMapError}
    (h : get_first_zero_bit pattern bits = .error e) :
    e = .NoAvailableSlots ∧ ∀ k, k < bits → pattern.testBit k = true := by
  unfold get_first_zero_bit at h
  by_cases h33 : bits < 33
  · rw [if_pos h33] at h
    obtain ⟨he, hall⟩ := scanCnt_err h
    exact ⟨he, fun k hk => hall k (by omega) (by omega)⟩
  · rw [if_neg h33] at h
    by_cases hm32 : pattern &&& 0xffffffff = 0xffffffff
    · rw [if_pos hm32] at h
      have hlow32 := (low32_iff pattern).mp hm32
      by_cases hm47 : pattern &&& 0xffff00000000 = 0xffff00000000
      · rw [if_pos hm47] at h
        have hmid := (mid3247_iff pattern).mp hm47
        obtain ⟨he, hall⟩ := scanCnt_err h
        refine ⟨he, ?_⟩
        intro k hk
        by_cases hk32 : k < 32
        · exact hlow32 k hk32
        · by_cases hk48 : k < 48
          · exact hmid k (by omega) hk48
          · exact hall k (by omega) (by omega)
      · rw [if_neg hm47] at h
        have hz : ∃ z, 32 ≤ z ∧ z < 48 ∧ pattern.testBit z = false := by
          by_contra hc
          push_neg at hc
          exact hm47 ((mid3247_iff pattern).mpr fun j hj1 hj2 => by
            cases hbit : pattern.testBit j
            · exact absurd hbit (hc j hj1 hj2)
            · rfl)
        obtain ⟨z, hz1, hz2, hz3⟩ := hz
        obtain ⟨he, hall⟩ := scanCnt_err h
        refine ⟨he, ?_⟩
        intro k hk
        by_cases hk32 : k < 32
        · exact hlow32 k hk32
        · by_cases hmin : k < min bits 48
          · exact hall k (by omega) (by omega)
          · exfalso
            have hzin : 32 ≤ z ∧ z < min bits 48 := by omega
            have := hall z (by omega) (by omega)
            rw [hz3] at this
            exact Bool.false_ne_true this
    · rw [if_neg hm32] at h
      have hz : ∃ z, z < 32 ∧ pattern.testBit z = false := by
        by_contra hc
        push_neg at hc
        exact hm32 ((low32_iff pattern).mpr fun j hj => by
          cases hbit : pattern.testBit j
          · exact absurd hbit (hc j hj)
          · rfl)
      obtain ⟨z, hz1, hz2⟩ := hz
      by_cases hm16 : pattern &&& 0xffff = 0xffff
      · rw [if_pos hm16] at h
        have hlow16 := (low16_iff pattern).mp hm16
        obtain ⟨he, hall⟩ := scanCnt_err h
        exfalso
        have hz16 : ¬ z < 16 := by
          intro hc
          have := hlow16 z hc
          rw [hz2] at this
          exact Bool.false_ne_true this
        have := hall z (by omega) (by omega)
        rw [hz2] at this
        exact Bool.false_ne_true this
      · rw [if_neg hm16] at h
        have hz16 : ∃ z16, z16 < 16 ∧ pattern.testBit z16 = false := by
          by_contra hc
          push_neg at hc
          exact hm16 ((low16_iff pattern).mpr fun j hj => by
            cases hbit : pattern.testBit j
            · exact absurd hbit (hc j hj)
            · rfl)
        obtain ⟨z16, hza, hzb⟩ := hz16
        obtain ⟨he, hall⟩ := scanCnt_err h
        exfalso
        have := hall z16 (by omega) (by omega)
        rw [hzb] at this
        exact Bool.false_ne_true this

/-- When every bit below `bits` is set, the kernel fails with
`NoAvailableSlots`. -/
theorem gfzb_err_of_all {pattern bits : Nat}
    (hall : ∀ k, k < bits → pattern.testBit k = true) :
    get_first_zero_bit pattern bits = .error .NoAvailableSlots := by
  unfold get_first_zero_bit
  by_cases h33 : bits < 33
  · rw [if_pos h33]
    exact scanCnt_err_of_all fun k hk1 hk2 => hall k (by omega)
  · rw [if_neg h33]
    have hm32 : pattern &&& 0xffffffff = 0xffffffff :=
      (low32_iff pattern).mpr fun j hj => hall j (by omega)
    rw [if_pos hm32]
    by_cases hm47 : pattern &&& 0xffff00000000 = 0xffff00000000
    · rw [if_pos hm47]
      exact scanCnt_err_of_all fun k hk1 hk2 => hall k (by omega)
    · rw [if_neg hm47]
      refine scanCnt_err_of_all fun k hk1 hk2 => hall k ?_
      have := Nat.min_le_left bits 48
      omega

/-- The kernel either succeeds or fails with `NoAvailableSlots`; no other
outcome is possible. -/
theorem gfzb_cases (pattern bits : Nat) :
    (∃ j, get_first_zero_bit pattern bits = .ok j) ∨
      get_first_zero_bit pattern bits = .error .NoAvailableSlots := by
  cases h : get_first_zero_bit pattern bits with
  | ok j => exact Or.inl ⟨j, rfl⟩
  | error e =>
    have he := (gfzb_err h).1
    subst he
    exact Or.inr rfl

/-- Geometry tag, translated from `MemoryMapType` in `src/lib.rs`.
`Standard` is the 3-tier geometry with a 64-bit top (the "Max" layout),
`Trade` the 3-tier geometry with a 4-bit top, `Small` the 2-tier one. -/
inductive MemoryMapType where
  | Standard
  | Trade
  | Small
deriving DecidableEq, Repr

/-- Number of significant bits of the first-level word
(`MemoryMapType::first_level_bits`). -/
def first_level_bits : MemoryMapType → Nat
  | .Standard => 64
  | .Trade => 4
  | .Small => 64

/-- Base word offset of the third level (`MemoryMapType::third_level_base`). -/
def third_level_base : MemoryMapType → Nat
  | .Standard => 65
  | .Trade => 5
  | .Small => 0

/-- Whether the geometry has a third level (`MemoryMapType::has_third_level`). -/
def has_third_level : MemoryMapType → Bool
  | .Standard => true
  | .Trade => true
  | .Small => false

/-- The value `u64::MAX`. -/
def UMAX : Nat := 2 ^ 64 - 1

/-- Read of word `i` of the buffer; in the Rust source every such read is
in bounds, so the default value is never observable along modelled paths. -/
def wd (w : List Nat) (i : Nat) : Nat := w.getD i 0

/-- Word update `w[a] |= 1 << k` from the Rust source. -/
def setBitW (w : List Nat) (a k : Nat) : List Nat :=
  w.set a (wd w a ||| (1 <<< k))

/-- Word update `w[a] &= u64::MAX - (1 << k)` from the Rust source. -/
def clearBitW (w : List Nat) (a k : Nat) : List Nat :=
  w.set a (wd w a &&& (UMAX - (1 <<< k)))

/-- Marking step of `MemoryMapImpl::alloc` for the 2-tier geometry:
`u64_slice[second_idx] |= 1 << second`, then, if that word became
`u64::MAX`, `u64_slice[0] |= 1 << first`. -/
def alloc2post (w : List Nat) (first second : Nat) : List Nat :=
  let w1 := setBitW w (1 + first) second
  if wd w1 (1 + first) = UMAX then setBitW w1 0 first else w1

/-- Marking step of `MemoryMapImpl::alloc` for the 3-tier geometries:
`u64_slice[third_idx] |= 1 << third` with conditional upward propagation
into the second- and first-level words. -/
def alloc3post (mt : MemoryMapType) (w : List Nat) (first second third : Nat) :
    List Nat :=
  let w1 := setBitW w (third_level_base mt + (first * 64 + second)) third
  if wd w1 (third_level_base mt + (first * 64 + second)) = UMAX then
    let w2 := setBitW w1 (1 + first) second
    if wd w2 (1 + first) = UMAX then setBitW w2 0 first else w2
  else w1

/-- Translation of `MemoryMapImpl::alloc` (`src/lib.rs`), acting on the
`u64` slice that starts at the configured offset.  Returns the allocated
index together with the updated buffer. -/
def alloc (mt : MemoryMapType) (w : List Nat) :
    Except MemoryMapError (Nat × List Nat) :=
  match get_first_zero_bit (wd w 0) (first_level_bits mt) with
  | .error e => .error e
  | .ok first =>
    if w.length ≤ 1 + first then .error .InsufficientMemory
    else
      match get_first_zero_bit (wd w (1 + first)) 64 with
      | .error e => .error e
      | .ok second =>
        if mt = .Small then
          .ok ((first <<< 6) + second, alloc2post w first second)
        else
          if w.length ≤ third_level_base mt + (first * 64 + second) then
            .error .InsufficientMemory
          else
            match get_first_zero_bit
                (wd w (third_level_base mt + (first * 64 + second))) 64 with
            | .error e => .error e
            | .ok third =>
              .ok ((first <<< 12) + (second <<< 6) + third,
                alloc3post mt w first second third)

/-- Maximum valid index accepted by `dealloc`, as computed in
`MemoryMapImpl::dealloc`: `(64 << 12) - 1 = 262143` for Standard,
`(4 << 12) - 1 = 16383` for Trade, `(64 << 6) - 1 = 4095` for Small. -/
def maxIndex : MemoryMapType → Int
  | .Standard => 262143
  | .Trade => 16383
  | .Small => 4095

/-- Translation of `MemoryMapImpl::dealloc` (`src/lib.rs`).  The index is
an `isize` in the source, hence `Int` here. -/
def dealloc (mt : MemoryMapType) (w : List Nat) (index : Int) :
    Except MemoryMapError (List Nat) :=
  if index < 0 then .error .InvalidIndex
  else if maxIndex mt < index then .error .InvalidIndex
  else
    let i := index.toNat
    if mt = .Small then
      if w.length ≤ 1 + (i >>> 6) then .error .IndexOutOfBounds
      else
        .ok (clearBitW (clearBitW w (1 + (i >>> 6)) (i &&& 0x3f)) 0 (i >>> 6))
    else
      if w.length ≤ third_level_base mt + (i >>> 6) ∨ w.length ≤ 1 + (i >>> 12) then
        .error .IndexOutOfBounds
      else
        .ok (clearBitW (clearBitW (clearBitW
              w (third_level_base mt + (i >>> 6)) (i &&& 0x3f))
              (1 + (i >>> 12)) ((i &&& 0xfff) >>> 6))
              0 (i >>> 12))

/-- Byte size required by the geometry, as computed in `MemoryMapImpl::new`. -/
def required_size : MemoryMapType → Nat
  | .Standard => (1 + 64 + 64 * 64) * 8
  | .Trade => (1 + 4 + 4 * 64) * 8
  | .Small => (1 + 64) * 8

/-- Construction-time validation performed by `MemoryMapImpl::new`:
`memLen` is the byte length of the region, `addr` the address of its first
byte.  On success the allocator is just the validated view, so the model
returns the `(offset, map_type)` pair. -/
def newCheck (memLen addr offset : Nat) (mt : MemoryMapType) :
    Except MemoryMapError (Nat × MemoryMapType) :=
  if memLen ≤ offset then .error .InvalidOffset
  else if (addr + offset) % 8 ≠ 0 then .error .AlignmentError
  else if memLen - offset < required_size mt then .error .InsufficientMemory
  else .ok (offset, mt)

/-- Number of `u64` words the geometry requires. -/
def reqWords : MemoryMapType → Nat
  | .Standard => 1 + 64 + 64 * 64
  | .Trade => 1 + 4 + 4 * 64
  | .Small => 1 + 64

/-- Total slot capacity of a geometry. -/
def capacity (mt : MemoryMapType) : Nat :=
  if has_third_level mt then first_level_bits mt * 4096
  else first_level_bits mt * 64

/-- The all-zero buffer a host hands to a freshly constructed allocator. -/
def zeroState (mt : MemoryMapType) : List Nat :=
  List.replicate (reqWords mt) 0

/-- Result and post-state of one `alloc` call: on an error the Rust method
returns before mutating, so the buffer is unchanged. -/
def allocRun (mt : MemoryMapType) (w : List Nat) :
    Except MemoryMapError Nat × List Nat :=
  match alloc mt w with
  | .ok (i, w') => (.ok i, w')
  | .error e => (.error e, w)

/-- Result and post-state of one `dealloc` call: on an error the Rust
method returns before mutating, so the buffer is unchanged. -/
def deallocRun (mt : MemoryMapType) (w : List Nat) (index : Int) :
    Except MemoryMapError Unit × List Nat :=
  match dealloc mt w index with
  | .ok w' => (.ok (), w')
  | .error e => (.error e, w)

/-- Buffer after `n` alloc calls starting from the all-zero buffer. -/
def stateAfter (mt : MemoryMapType) : Nat → List Nat
  | 0 => zeroState mt
  | n + 1 => (allocRun mt (stateAfter mt n)).2

/-- Slot `i` is marked allocated: its bit in the lowest-tier word is set. -/
def slotAllocated (mt : MemoryMapType) (w : List Nat) (i : Nat) : Prop :=
  if has_third_level mt then
    (wd w (third_level_base mt + i / 64)).testBit (i % 64) = true
  else
    (wd w (1 + i / 64)).testBit (i % 64) = true

/-- The parent-full invariant of §3 of the spec: a parent bit is set iff
the corresponding child word is entirely set. -/
def Inv (mt : MemoryMapType) (w : List Nat) : Prop :=
  (∀ t, t < first_level_bits mt →
    ((wd w 0).testBit t = true ↔ wd w (1 + t) = UMAX)) ∧
  (has_third_level mt = true → ∀ t, t < first_level_bits mt → ∀ m, m < 64 →
    ((wd w (1 + t)).testBit m = true ↔
      wd w (third_level_base mt + (t * 64 + m)) = UMAX))

/-- Every word of the buffer fits in a `u64`. -/
def WF (w : List Nat) : Prop := ∀ a, wd w a < 2 ^ 64

/-- Bit positions (word index, bit index) cleared by `dealloc i`. -/
def clearPositions (mt : MemoryMapType) (i : Nat) : List (Nat × Nat) :=
  if has_third_level mt then
    [(third_level_base mt + i / 64, i % 64), (1 + i / 4096, i % 4096 / 64),
     (0, i / 4096)]
  else
    [(1 + i / 64, i % 64), (0, i / 64)]

theorem wd_eq_getElem {w : List Nat} {a : Nat} (h : a < w.length) :
    wd w a = w[a] := by
  unfold wd
  rw [List.getD_eq_getElem?_getD, List.getElem?_eq_getElem h]
  rfl

theorem wd_set_self {w : List Nat} {a : Nat} (h : a < w.length) (v : Nat) :
    wd (w.set a v) a = v := by
  unfold wd
  rw [List.getD_eq_getElem?_getD, List.getElem?_set_self h]
  rfl

theorem wd_set_ne {w : List Nat} {a b : Nat} (h : a ≠ b) (v : Nat) :
    wd (w.set a v) b = wd w b := by
  unfold wd
  rw [List.getD_eq_getElem?_getD, List.getElem?_set_ne h,
    ← List.getD_eq_getElem?_getD]

theorem set_wd_self {w : List Nat} {a : Nat} (h : a < w.length) :
    w.set a (wd w a) = w := by
  apply List.ext_getElem (by simp)
  intro i h1 h2
  by_cases hia : a = i
  · subst hia
    rw [List.getElem_set_self, wd_eq_getElem h]
  · rw [List.getElem_set_ne hia]

theorem length_setBitW (w : List Nat) (a k : Nat) :
    (setBitW w a k).length = w.length := by
  unfold setBitW
  exact List.length_set w a _

theorem length_clearBitW (w : List Nat) (a k : Nat) :
    (clearBitW w a k).length = w.length := by
  unfold clearBitW
  exact List.length_set w a _

theorem wd_setBitW_self {w : List Nat} {a : Nat} (h : a < w.length) (k : Nat) :
    wd (setBitW w a k) a = wd w a ||| (1 <<< k) := by
  unfold setBitW
  exact wd_set_self h _

theorem wd_setBitW_ne {w : List Nat} {a b : Nat} (h : a ≠ b) (k : Nat) :
    wd (setBitW w a k) b = wd w b := by
  unfold setBitW
  exact wd_set_ne h _

theorem wd_clearBitW_self {w : List Nat} {a : Nat} (h : a < w.length) (k : Nat) :
    wd (clearBitW w a k) a = wd w a &&& (UMAX - (1 <<< k)) := by
  unfold clearBitW
  exact wd_set_self h _

theorem wd_clearBitW_ne {w : List Nat} {a b : Nat} (h : a ≠ b) (k : Nat) :
    wd (clearBitW w a k) b = wd w b := by
  unfold clearBitW
  exact wd_set_ne h _

theorem length_zeroState (mt : MemoryMapType) :
    (zeroState mt).length = reqWords mt := by
  unfold zeroState
  exact List.length_replicate _ _

theorem wd_zeroState (mt : MemoryMapType) (a : Nat) : wd (zeroState mt) a = 0 := by
  unfold wd zeroState
  rw [List.getD_eq_getElem?_getD, List.getElem?_replicate]
  split <;> rfl

theorem umax_lt : UMAX < 2 ^ 64 := by
  unfold UMAX
  omega

theorem umax_testBit (j : Nat) : UMAX.testBit j = decide (j < 64) := by
  unfold UMAX
  exact Nat.testBit_two_pow_sub_one 64 j

theorem testBit_ge64 {n : Nat} (h : n < 2 ^ 64) {j : Nat} (hj : 64 ≤ j) :
    n.testBit j = false :=
  Nat.testBit_lt_two_pow
    (lt_of_lt_of_le h (Nat.pow_le_pow_right (by omega) hj))

theorem eq_umax {n : Nat} (h : n < 2 ^ 64)
    (hb : ∀ j, j < 64 → n.testBit j = true) : n = UMAX := by
  apply Nat.eq_of_testBit_eq
  intro j
  by_cases hj : j < 64
  · rw [hb j hj, umax_testBit]
    simp [hj]
  · rw [testBit_ge64 h (by omega), testBit_ge64 umax_lt (by omega)]

theorem ne_umax_zero_bit {n : Nat} (h : n < 2 ^ 64) (hne : n ≠ UMAX) :
    ∃ j, j < 64 ∧ n.testBit j = false := by
  by_contra hc
  push_neg at hc
  exact hne (eq_umax h fun j hj => by
    cases hbit : n.testBit j
    · exact absurd hbit (hc j hj)
    · rfl)

theorem umax_bit_true {j : Nat} (h : j < 64) : UMAX.testBit j = true := by
  rw [umax_testBit]
  simp [h]

theorem or_shift_testBit (x k b : Nat) :
    (x ||| (1 <<< k)).testBit b = (x.testBit b || decide (k = b)) := by
  rw [Nat.testBit_or, Nat.shiftLeft_eq, one_mul, Nat.testBit_two_pow]

theorem clear_mask_small :
    ∀ k, k < 64 → ∀ b, b < 64 →
      (UMAX - (1 <<< k)).testBit b = !decide (b = k) := by decide

theorem clear_mask_lt {k : Nat} (hk : k < 64) : UMAX - (1 <<< k) < 2 ^ 64 :=
  lt_of_le_of_lt (Nat.sub_le _ _) umax_lt

theorem clearBit_testBit {x : Nat} (hx : x < 2 ^ 64) {k : Nat} (hk : k < 64)
    (b : Nat) :
    (x &&& (UMAX - (1 <<< k))).testBit b = (x.testBit b && !decide (b = k)) := by
  rw [Nat.testBit_and]
  by_cases hb : b < 64
  · rw [clear_mask_small k hk b hb]
  · rw [testBit_ge64 hx (by omega)]
    simp

theorem geom3 {mt : MemoryMapType} (h3 : has_third_level mt = true) :
    third_level_base mt = 1 + first_level_bits mt ∧
    reqWords mt = 1 + first_level_bits mt + first_level_bits mt * 64 ∧
    capacity mt = first_level_bits mt * 4096 ∧
    0 < first_level_bits mt ∧ first_level_bits mt ≤ 64 ∧
    ¬ mt = MemoryMapType.Small := by
  cases mt
  · exact ⟨rfl, rfl, rfl, by decide, by decide, by decide⟩
  · exact ⟨rfl, rfl, rfl, by decide, by decide, by decide⟩
  · simp [has_third_level] at h3

theorem geomS :
    first_level_bits MemoryMapType.Small = 64 ∧
    reqWords MemoryMapType.Small = 65 ∧
    capacity MemoryMapType.Small = 4096 ∧
    has_third_level MemoryMapType.Small = false := ⟨rfl, rfl, rfl, rfl⟩

theorem one_shift_lt64 {k : Nat} (hk : k < 64) : 1 <<< k < 2 ^ 64 := by
  rw [Nat.shiftLeft_eq, one_mul]
  exact Nat.pow_lt_pow_right (by norm_num) hk

/-- Consequences of the 3-tier marking step of `alloc`: a post-state whose
leaf word gained bit `third`, whose second- and first-level words gained
their bits exactly under the code's propagation conditions, and whose other
words are untouched, is well formed, satisfies the invariant again, marks
exactly slot `first*4096 + second*64 + third`, and only adds bits at the
positions `dealloc` of that slot clears. -/
theorem alloc3_state_facts (mt : MemoryMapType) (h3 : has_third_level mt = true)
    (w w' : List Nat) (hlen : reqWords mt ≤ w.length) (hwf : WF w)
    (hinv : Inv mt w) (first second third : Nat)
    (hf1 : first < first_level_bits mt)
    (hf2 : (wd w 0).testBit first = false)
    (hs1 : second < 64)
    (hs2 : (wd w (1 + first)).testBit second = false)
    (ht1 : third < 64)
    (ht2 : (wd w (third_level_base mt + (first * 64 + second))).testBit third = false)
    (hwt : wd w' (third_level_base mt + (first * 64 + second))
         = wd w (third_level_base mt + (first * 64 + second)) ||| (1 <<< third))
    (hws : if wd w' (third_level_base mt + (first * 64 + second)) = UMAX
           then wd w' (1 + first) = wd w (1 + first) ||| (1 <<< second)
           else wd w' (1 + first) = wd w (1 + first))
    (hw0 : if wd w' (1 + first) = UMAX
           then wd w' 0 = wd w 0 ||| (1 <<< first)
           else wd w' 0 = wd w 0)
    (hother : ∀ a, a ≠ 0 → a ≠ 1 + first →
       a ≠ third_level_base mt + (first * 64 + second) → wd w' a = wd w a) :
    WF w' ∧ Inv mt w' ∧
    (∀ j, j < capacity mt →
      (slotAllocated mt w' j ↔ slotAllocated mt w j ∨
        j = first * 4096 + second * 64 + third)) ∧
    (∀ a b, (wd w' a).testBit b = true → (wd w a).testBit b = true ∨
      (a, b) ∈ clearPositions mt (first * 4096 + second * 64 + third)) := by
  obtain ⟨htlb, hreq, hcap, hflbpos, hflb64, hnsmall⟩ := geom3 h3
  have hi64 : (first * 4096 + second * 64 + third) / 64 = first * 64 + second := by
    omega
  have hi64m : (first * 4096 + second * 64 + third) % 64 = third := by omega
  have hi4096 : (first * 4096 + second * 64 + third) / 4096 = first := by omega
  have hi4096m : (first * 4096 + second * 64 + third) % 4096 / 64 = second := by
    omega
  have hwf' : WF w' := by
    intro a
    by_cases hat : a = third_level_base mt + (first * 64 + second)
    · rw [hat, hwt]
      exact Nat.or_lt_two_pow (hwf _) (one_shift_lt64 ht1)
    · by_cases has : a = 1 + first
      · subst has
        by_cases hP1 : wd w' (third_level_base mt + (first * 64 + second)) = UMAX
        · rw [if_pos hP1] at hws
          rw [hws]
          exact Nat.or_lt_two_pow (hwf _) (one_shift_lt64 hs1)
        · rw [if_neg hP1] at hws
          rw [hws]
          exact hwf _
      · by_cases ha0 : a = 0
        · subst ha0
          by_cases hP2 : wd w' (1 + first) = UMAX
          · rw [if_pos hP2] at hw0
            rw [hw0]
            exact Nat.or_lt_two_pow (hwf _) (one_shift_lt64 (by omega))
          · rw [if_neg hP2] at hw0
            rw [hw0]
            exact hwf _
        · rw [hother a ha0 has hat]
          exact hwf _
  have hinv' : Inv mt w' := by
    constructor
    · intro t htf
      by_cases htfirst : t = first
      · subst htfirst
        by_cases hP2 : wd w' (1 + t) = UMAX
        · rw [if_pos hP2] at hw0
          rw [hw0, or_shift_testBit]
          exact iff_of_true (by simp) hP2
        · rw [if_neg hP2] at hw0
          rw [hw0, hf2]
          exact iff_of_false Bool.false_ne_true hP2
      · have hwsa : wd w' (1 + t) = wd w (1 + t) :=
          hother (1 + t) (by omega) (by omega) (by omega)
        have h0bit : (wd w' 0).testBit t = (wd w 0).testBit t := by
          by_cases hP2 : wd w' (1 + first) = UMAX
          · rw [if_pos hP2] at hw0
            rw [hw0, or_shift_testBit]
            have : decide (first = t) = false := by
              simp
              omega
            rw [this, Bool.or_false]
          · rw [if_neg hP2] at hw0
            rw [hw0]
        rw [h0bit, hwsa]
        exact hinv.1 t htf
    · intro _ t htf m hm
      by_cases hts : t = first ∧ m = second
      · obtain ⟨rfl, rfl⟩ := hts
        by_cases hP1 : wd w' (third_level_base mt + (t * 64 + m)) = UMAX
        · rw [if_pos hP1] at hws
          rw [hws, or_shift_testBit]
          exact iff_of_true (by simp) hP1
        · rw [if_neg hP1] at hws
          rw [hws, hs2]
          exact iff_of_false Bool.false_ne_true hP1
      · by_cases htfirst : t = first
        · subst htfirst
          have hm2 : ¬ m = second := fun hc => hts ⟨rfl, hc⟩
          have hmidbit : (wd w' (1 + t)).testBit m = (wd w (1 + t)).testBit m := by
            by_cases hP1 : wd w' (third_level_base mt + (t * 64 + second)) = UMAX
            · rw [if_pos hP1] at hws
              rw [hws, or_shift_testBit]
              have : decide (second = m) = false := by
                simp
                omega
              rw [this, Bool.or_false]
            · rw [if_neg hP1] at hws
              rw [hws]
          have hleaf : wd w' (third_level_base mt + (t * 64 + m))
              = wd w (third_level_base mt + (t * 64 + m)) :=
            hother _ (by omega) (by omega) (by omega)
          rw [hmidbit, hleaf]
          exact hinv.2 h3 t htf m hm
        · have hmid : wd w' (1 + t) = wd w (1 + t) :=
            hother _ (by omega) (by omega) (by omega)
          have hleaf : wd w' (third_level_base mt + (t * 64 + m))
              = wd w (third_level_base mt + (t * 64 + m)) :=
            hother _ (by omega) (by omega) (by omega)
          rw [hmid, hleaf]
          exact hinv.2 h3 t htf m hm
  have hslot : ∀ j, j < capacity mt →
      (slotAllocated mt w' j ↔ slotAllocated mt w j ∨
        j = first * 4096 + second * 64 + third) := by
    intro j hj
    simp only [slotAllocated, h3, if_true]
    by_cases hword : third_level_base mt + j / 64
        = third_level_base mt + (first * 64 + second)
    · have hj64 : j / 64 = first * 64 + second := by omega
      rw [hword, hwt, or_shift_testBit]
      constructor
      · intro h
        rw [Bool.or_eq_true] at h
        rcases h with h | h
        · exact Or.inl h
        · right
          have h3rd : third = j % 64 := of_decide_eq_true h
          omega
      · intro h
        rcases h with h | h
        · rw [h]
          simp
        · have : j % 64 = third := by omega
          rw [this]
          simp
    · have hjne : ¬ j = first * 4096 + second * 64 + third := by
        intro hji
        rw [hji] at hword
        omega
      rw [hother _ (by omega) (by omega) hword]
      simp [hjne]
  have hbits : ∀ a b, (wd w' a).testBit b = true →
      (wd w a).testBit b = true ∨
        (a, b) ∈ clearPositions mt (first * 4096 + second * 64 + third) := by
    intro a b hab
    by_cases hat : a = third_level_base mt + (first * 64 + second)
    · subst hat
      rw [hwt, or_shift_testBit] at hab
      rw [Bool.or_eq_true] at hab
      rcases hab with h | h
      · exact Or.inl h
      · right
        have hb : third = b := of_decide_eq_true h
        simp only [clearPositions, h3, if_true, List.mem_cons]
        left
        rw [hi64, hi64m, ← hb]
    · by_cases has : a = 1 + first
      · subst has
        by_cases hP1 : wd w' (third_level_base mt + (first * 64 + second)) = UMAX
        · rw [if_pos hP1] at hws
          rw [hws, or_shift_testBit] at hab
          rw [Bool.or_eq_true] at hab
          rcases hab with h | h
          · exact Or.inl h
          · right
            have hb : second = b := of_decide_eq_true h
            simp only [clearPositions, h3, if_true, List.mem_cons]
            right
            left
            rw [hi4096, hi4096m, ← hb]
        · rw [if_neg hP1] at hws
          rw [hws] at hab
          exact Or.inl hab
      · by_cases ha0 : a = 0
        · subst ha0
          by_cases hP2 : wd w' (1 + first) = UMAX
          · rw [if_pos hP2] at hw0
            rw [hw0, or_shift_testBit] at hab
            rw [Bool.or_eq_true] at hab
            rcases hab with h | h
            · exact Or.inl h
            · right
              have hb : first = b := of_decide_eq_true h
              simp only [clearPositions, h3, if_true, List.mem_cons]
              right
              right
              left
              rw [hi4096, ← hb]
          · rw [if_neg hP2] at hw0
            rw [hw0] at hab
            exact Or.inl hab
        · rw [hother a ha0 has hat] at hab
          exact Or.inl hab
  exact ⟨hwf', hinv', hslot, hbits⟩

/-- Word-level description of the 3-tier marking step `alloc3post`. -/
theorem alloc3post_desc (mt : MemoryMapType) (w : List Nat)
    (first second third : Nat)
    (htidx_lt : third_level_base mt + (first * 64 + second) < w.length)
    (hsidx_lt : 1 + first < w.length)
    (hne_st : ¬ (1 + first) = third_level_base mt + (first * 64 + second))
    (hne_0t : ¬ (0 : Nat) = third_level_base mt + (first * 64 + second))
    (hne_0s : ¬ (0 : Nat) = 1 + first)
    (hmidne : wd w (1 + first) ≠ UMAX) :
    (alloc3post mt w first second third).length = w.length ∧
    wd (alloc3post mt w first second third)
        (third_level_base mt + (first * 64 + second))
      = wd w (third_level_base mt + (first * 64 + second)) ||| (1 <<< third) ∧
    (if wd (alloc3post mt w first second third)
          (third_level_base mt + (first * 64 + second)) = UMAX
     then wd (alloc3post mt w first second third) (1 + first)
        = wd w (1 + first) ||| (1 <<< second)
     else wd (alloc3post mt w first second third) (1 + first)
        = wd w (1 + first)) ∧
    (if wd (alloc3post mt w first second third) (1 + first) = UMAX
     then wd (alloc3post mt w first second third) 0
        = wd w 0 ||| (1 <<< first)
     else wd (alloc3post mt w first second third) 0 = wd w 0) ∧
    (∀ a, a ≠ 0 → a ≠ 1 + first →
      a ≠ third_level_base mt + (first * 64 + second) →
      wd (alloc3post mt w first second third) a = wd w a) := by
  simp only [alloc3post]
  by_cases hP1 : wd (setBitW w (third_level_base mt + (first * 64 + second))
      third) (third_level_base mt + (first * 64 + second)) = UMAX
  · rw [if_pos hP1]
    have hw1t := wd_setBitW_self htidx_lt third
    have hl1' : 1 + first <
        (setBitW w (third_level_base mt + (first * 64 + second)) third).length := by
      rw [length_setBitW]
      exact hsidx_lt
    by_cases hP2 : wd (setBitW (setBitW w
        (third_level_base mt + (first * 64 + second)) third)
        (1 + first) second) (1 + first) = UMAX
    · rw [if_pos hP2]
      have hl0 : (0 : Nat) < (setBitW (setBitW w
          (third_level_base mt + (first * 64 + second)) third)
          (1 + first) second).length := by
        rw [length_setBitW, length_setBitW]
        omega
      have h2t : wd (setBitW (setBitW w
          (third_level_base mt + (first * 64 + second)) third)
          (1 + first) second) (third_level_base mt + (first * 64 + second))
          = wd w (third_level_base mt + (first * 64 + second)) ||| (1 <<< third) := by
        rw [wd_setBitW_ne (fun hc => hne_st hc) second, hw1t]
      have h2s : wd (setBitW (setBitW w
          (third_level_base mt + (first * 64 + second)) third)
          (1 + first) second) (1 + first)
          = wd w (1 + first) ||| (1 <<< second) := by
        rw [wd_setBitW_self hl1' second,
          wd_setBitW_ne (fun hc => hne_st hc.symm) third]
      have h3t : wd (setBitW (setBitW (setBitW w
          (third_level_base mt + (first * 64 + second)) third)
          (1 + first) second) 0 first)
          (third_level_base mt + (first * 64 + second))
          = wd w (third_level_base mt + (first * 64 + second)) ||| (1 <<< third) := by
        rw [wd_setBitW_ne hne_0t first, h2t]
      have h3s : wd (setBitW (setBitW (setBitW w
          (third_level_base mt + (first * 64 + second)) third)
          (1 + first) second) 0 first) (1 + first)
          = wd w (1 + first) ||| (1 <<< second) := by
        rw [wd_setBitW_ne hne_0s first, h2s]
      refine ⟨by rw [length_setBitW, length_setBitW, length_setBitW], h3t, ?_, ?_, ?_⟩
      · rw [if_pos (by rw [h3t, ← hw1t]; exact hP1)]
        exact h3s
      · rw [if_pos (by rw [h3s, ← h2s]; exact hP2)]
        rw [wd_setBitW_self hl0 first,
          wd_setBitW_ne (fun hc => hne_0s hc.symm) second,
          wd_setBitW_ne (fun hc => hne_0t hc.symm) third]
      · intro a ha0 has hat
        rw [wd_setBitW_ne (fun hc => ha0 hc.symm) first,
          wd_setBitW_ne (fun hc => has hc.symm) second,
          wd_setBitW_ne (fun hc => hat hc.symm) third]
    · rw [if_neg hP2]
      have h2t : wd (setBitW (setBitW w
          (third_level_base mt + (first * 64 + second)) third)
          (1 + first) second) (third_level_base mt + (first * 64 + second))
          = wd w (third_level_base mt + (first * 64 + second)) ||| (1 <<< third) := by
        rw [wd_setBitW_ne (fun hc => hne_st hc) second, hw1t]
      have h2s : wd (setBitW (setBitW w
          (third_level_base mt + (first * 64 + second)) third)
          (1 + first) second) (1 + first)
          = wd w (1 + first) ||| (1 <<< second) := by
        rw [wd_setBitW_self hl1' second,
          wd_setBitW_ne (fun hc => hne_st hc.symm) third]
      refine ⟨by rw [length_setBitW, length_setBitW], h2t, ?_, ?_, ?_⟩
      · rw [if_pos (by rw [h2t, ← hw1t]; exact hP1)]
        exact h2s
      · rw [if_neg (by rw [h2s, ← h2s] at hP2 ⊢; exact hP2)]
        rw [wd_setBitW_ne (fun hc => hne_0s hc.symm) second,
          wd_setBitW_ne (fun hc => hne_0t hc.symm) third]
      · intro a ha0 has hat
        rw [wd_setBitW_ne (fun hc => has hc.symm) second,
          wd_setBitW_ne (fun hc => hat hc.symm) third]
  · rw [if_neg hP1]
    have hw1t := wd_setBitW_self htidx_lt third
    have h1s : wd (setBitW w (third_level_base mt + (first * 64 + second))
        third) (1 + first) = wd w (1 + first) := by
      rw [wd_setBitW_ne (fun hc => hne_st hc.symm) third]
    refine ⟨by rw [length_setBitW], hw1t, ?_, ?_, ?_⟩
    · rw [if_neg (by rw [hw1t, ← hw1t]; exact hP1)]
      exact h1s
    · rw [if_neg (by rw [h1s]; exact fun hc => hmidne hc)]
      rw [wd_setBitW_ne (fun hc => hne_0t hc.symm) third]
    · intro a ha0 has hat
      rw [wd_setBitW_ne (fun hc => hat hc.symm) third]

/-- Behaviour of `alloc` on a 3-tier geometry under the invariant: it
either reports `NoAvailableSlots` with every slot already allocated, or
allocates exactly the smallest free slot and re-establishes the invariant. -/
theorem alloc3_spec (mt : MemoryMapType) (h3 : has_third_level mt = true)
    (w : List Nat) (hlen : reqWords mt ≤ w.length) (hwf : WF w)
    (hinv : Inv mt w) :
    (alloc mt w = .error .NoAvailableSlots ∧
      ∀ j, j < capacity mt → slotAllocated mt w j) ∨
    ∃ i w', alloc mt w = .ok (i, w') ∧ i < capacity mt ∧
      ¬ slotAllocated mt w i ∧ (∀ j, j < i → slotAllocated mt w j) ∧
      w'.length = w.length ∧ WF w' ∧ Inv mt w' ∧
      (∀ j, j < capacity mt →
        (slotAllocated mt w' j ↔ slotAllocated mt w j ∨ j = i)) ∧
      (∀ a b, (wd w' a).testBit b = true →
        (wd w a).testBit b = true ∨ (a, b) ∈ clearPositions mt i) ∧
      (∀ a, a ≠ 0 → a ≠ 1 + i / 4096 → a ≠ third_level_base mt + i / 64 →
        wd w' a = wd w a) := by
  obtain ⟨htlb, hreq, hcap, hflbpos, hflb64, hnsmall⟩ := geom3 h3
  cases hg1 : get_first_zero_bit (wd w 0) (first_level_bits mt) with
  | error e =>
    obtain ⟨he, hall⟩ := gfzb_err hg1
    subst he
    left
    constructor
    · simp only [alloc, hg1]
    · intro j hj
      have hj4096 : j / 4096 < first_level_bits mt := by omega
      have htop := hall (j / 4096) hj4096
      have hmideq := (hinv.1 (j / 4096) hj4096).mp htop
      have hmidbit : (wd w (1 + j / 4096)).testBit (j % 4096 / 64) = true := by
        rw [hmideq]
        exact umax_bit_true (by omega)
      have hleafeq := (hinv.2 h3 (j / 4096) hj4096 (j % 4096 / 64) (by omega)).mp hmidbit
      simp only [slotAllocated, h3, if_true]
      have hj64 : j / 64 = j / 4096 * 64 + j % 4096 / 64 := by omega
      rw [hj64, hleafeq]
      exact umax_bit_true (by omega)
  | ok first =>
    obtain ⟨hf1, hf2, hf3⟩ := gfzb_ok hg1
    have hl1 : ¬ w.length ≤ 1 + first := by omega
    have hmidne : wd w (1 + first) ≠ UMAX := fun hc => by
      have := (hinv.1 first hf1).mpr hc
      rw [hf2] at this
      exact Bool.false_ne_true this
    cases hg2 : get_first_zero_bit (wd w (1 + first)) 64 with
    | error e =>
      exfalso
      obtain ⟨_, hall2⟩ := gfzb_err hg2
      exact hmidne (eq_umax (hwf _) fun j hj => hall2 j hj)
    | ok second =>
      obtain ⟨hs1, hs2, hs3⟩ := gfzb_ok hg2
      have hl2 : ¬ w.length ≤ third_level_base mt + (first * 64 + second) := by
        omega
      have hleafne : wd w (third_level_base mt + (first * 64 + second)) ≠ UMAX :=
        fun hc => by
          have := (hinv.2 h3 first hf1 second hs1).mpr hc
          rw [hs2] at this
          exact Bool.false_ne_true this
      cases hg3 : get_first_zero_bit
          (wd w (third_level_base mt + (first * 64 + second))) 64 with
      | error e =>
        exfalso
        obtain ⟨_, hall3⟩ := gfzb_err hg3
        exact hleafne (eq_umax (hwf _) fun j hj => hall3 j hj)
      | ok third =>
        obtain ⟨ht1, ht2, ht3⟩ := gfzb_ok hg3
        right
        have halloc : alloc mt w = .ok ((first <<< 12) + (second <<< 6) + third,
            alloc3post mt w first second third) := by
          simp only [alloc, hg1, hg2, hg3, if_neg hl1, if_neg hnsmall, if_neg hl2]
        have hidx : (first <<< 12) + (second <<< 6) + third
            = first * 4096 + second * 64 + third := by
          rw [Nat.shiftLeft_eq, Nat.shiftLeft_eq]
        have hi64 : (first * 4096 + second * 64 + third) / 64
            = first * 64 + second := by omega
        have hi64m : (first * 4096 + second * 64 + third) % 64 = third := by omega
        have hi4096 : (first * 4096 + second * 64 + third) / 4096 = first := by
          omega
        have hicap : first * 4096 + second * 64 + third < capacity mt := by omega
        have htidx_lt : third_level_base mt + (first * 64 + second) < w.length := by
          omega
        have hsidx_lt : 1 + first < w.length := by omega
        have hne_st : ¬ (1 + first) = third_level_base mt + (first * 64 + second) := by
          omega
        have hne_0t : ¬ (0 : Nat) = third_level_base mt + (first * 64 + second) := by
          omega
        have hne_0s : ¬ (0 : Nat) = 1 + first := by omega
        have hfree : ¬ slotAllocated mt w (first * 4096 + second * 64 + third) := by
          simp only [slotAllocated, h3, if_true]
          rw [hi64, hi64m, ht2]
          exact Bool.false_ne_true
        have hmin : ∀ j, j < first * 4096 + second * 64 + third →
            slotAllocated mt w j := by
          intro j hj
          simp only [slotAllocated, h3, if_true]
          have hcases : j / 4096 < first ∨
              (j / 4096 = first ∧ j % 4096 / 64 < second) ∨
              (j / 4096 = first ∧ j % 4096 / 64 = second ∧ j % 64 < third) := by
            omega
          rcases hcases with h | ⟨h1, h2⟩ | ⟨h1, h2, h3'⟩
          · have hjf : j / 4096 < first_level_bits mt := by omega
            have htop := hf3 (j / 4096) h
            have hmideq := (hinv.1 (j / 4096) hjf).mp htop
            have hmidbit : (wd w (1 + j / 4096)).testBit (j % 4096 / 64) = true := by
              rw [hmideq]
              exact umax_bit_true (by omega)
            have hleafeq :=
              (hinv.2 h3 (j / 4096) hjf (j % 4096 / 64) (by omega)).mp hmidbit
            have hj64 : j / 64 = j / 4096 * 64 + j % 4096 / 64 := by omega
            rw [hj64, hleafeq]
            exact umax_bit_true (by omega)
          · have hmidbit := hs3 (j % 4096 / 64) h2
            have hleafeq :=
              (hinv.2 h3 first hf1 (j % 4096 / 64) (by omega)).mp hmidbit
            have hj64 : j / 64 = first * 64 + j % 4096 / 64 := by omega
            rw [hj64, hleafeq]
            exact umax_bit_true (by omega)
          · have hlb := ht3 (j % 64) h3'
            have hj64 : j / 64 = first * 64 + second := by omega
            rw [hj64]
            exact hlb
        have hdesc := alloc3post_desc mt w first second third
          htidx_lt hsidx_lt hne_st hne_0t hne_0s hmidne
        obtain ⟨hlenp, hwt, hws, hw0, hother⟩ := hdesc
        obtain ⟨hwf', hinv', hslot, hbits⟩ :=
          alloc3_state_facts mt h3 w (alloc3post mt w first second third)
            hlen hwf hinv first second third hf1 hf2 hs1 hs2 ht1 ht2
            hwt hws hw0 hother
        refine ⟨first * 4096 + second * 64 + third,
          alloc3post mt w first second third, ?_, hicap, hfree, hmin,
          hlenp, hwf', hinv', hslot, hbits, ?_⟩
        · rw [halloc, hidx]
        · intro a ha0 has hat
          rw [hi4096] at has
          rw [hi64] at hat
          exact hother a ha0 has hat

/-- Consequences of the 2-tier marking step of `alloc`, analogous to
`alloc3_state_facts`. -/
theorem alloc2_state_facts (w w' : List Nat) (hwf : WF w)
    (hinv : Inv .Small w) (first second : Nat)
    (hf1 : first < 64)
    (hf2 : (wd w 0).testBit first = false)
    (hs1 : second < 64)
    (hs2 : (wd w (1 + first)).testBit second = false)
    (hws : wd w' (1 + first) = wd w (1 + first) ||| (1 <<< second))
    (hw0 : if wd w' (1 + first) = UMAX
           then wd w' 0 = wd w 0 ||| (1 <<< first)
           else wd w' 0 = wd w 0)
    (hother : ∀ a, a ≠ 0 → a ≠ 1 + first → wd w' a = wd w a) :
    WF w' ∧ Inv .Small w' ∧
    (∀ j, j < capacity .Small →
      (slotAllocated .Small w' j ↔ slotAllocated .Small w j ∨
        j = first * 64 + second)) ∧
    (∀ a b, (wd w' a).testBit b = true → (wd w a).testBit b = true ∨
      (a, b) ∈ clearPositions .Small (first * 64 + second)) := by
  have hi64 : (first * 64 + second) / 64 = first := by omega
  have hi64m : (first * 64 + second) % 64 = second := by omega
  have hwf' : WF w' := by
    intro a
    by_cases has : a = 1 + first
    · rw [has, hws]
      exact Nat.or_lt_two_pow (hwf _) (one_shift_lt64 hs1)
    · by_cases ha0 : a = 0
      · subst ha0
        by_cases hP2 : wd w' (1 + first) = UMAX
        · rw [if_pos hP2] at hw0
          rw [hw0]
          exact Nat.or_lt_two_pow (hwf _) (one_shift_lt64 hf1)
        · rw [if_neg hP2] at hw0
          rw [hw0]
          exact hwf _
      · rw [hother a ha0 has]
        exact hwf _
  have hinv' : Inv .Small w' := by
    constructor
    · intro t htf
      by_cases htfirst : t = first
      · subst htfirst
        by_cases hP2 : wd w' (1 + t) = UMAX
        · rw [if_pos hP2] at hw0
          rw [hw0, or_shift_testBit]
          exact iff_of_true (by simp) hP2
        · rw [if_neg hP2] at hw0
          rw [hw0, hf2]
          exact iff_of_false Bool.false_ne_true hP2
      · have hwsa : wd w' (1 + t) = wd w (1 + t) :=
          hother (1 + t) (by omega) (by omega)
        have h0bit : (wd w' 0).testBit t = (wd w 0).testBit t := by
          by_cases hP2 : wd w' (1 + first) = UMAX
          · rw [if_pos hP2] at hw0
            rw [hw0, or_shift_testBit]
            have : decide (first = t) = false := by
              simp
              omega
            rw [this, Bool.or_false]
          · rw [if_neg hP2] at hw0
            rw [hw0]
        rw [h0bit, hwsa]
        exact hinv.1 t htf
    · intro hc
      simp [has_third_level] at hc
  have hslot : ∀ j, j < capacity .Small →
      (slotAllocated .Small w' j ↔ slotAllocated .Small w j ∨
        j = first * 64 + second) := by
    intro j hj
    simp only [slotAllocated, has_third_level, if_false, Bool.false_eq_true]
    by_cases hword : 1 + j / 64 = 1 + first
    · have hj64 : j / 64 = first := by omega
      rw [hword, hws, or_shift_testBit]
      constructor
      · intro h
        rw [Bool.or_eq_true] at h
        rcases h with h | h
        · exact Or.inl h
        · right
          have h2nd : second = j % 64 := of_decide_eq_true h
          omega
      · intro h
        rcases h with h | h
        · rw [h]
          simp
        · have : j % 64 = second := by omega
          rw [this]
          simp
    · have hjne : ¬ j = first * 64 + second := by
        intro hji
        rw [hji] at hword
        omega
      rw [hother _ (by omega) hword]
      simp [hjne]
  have hbits : ∀ a b, (wd w' a).testBit b = true →
      (wd w a).testBit b = true ∨
        (a, b) ∈ clearPositions .Small (first * 64 + second) := by
    intro a b hab
    by_cases has : a = 1 + first
    · subst has
      rw [hws, or_shift_testBit] at hab
      rw [Bool.or_eq_true] at hab
      rcases hab with h | h
      · exact Or.inl h
      · right
        have hb : second = b := of_decide_eq_true h
        simp only [clearPositions, has_third_level, Bool.false_eq_true, if_false,
          List.mem_cons]
        left
        rw [hi64, hi64m, ← hb]
    · by_cases ha0 : a = 0
      · subst ha0
        by_cases hP2 : wd w' (1 + first) = UMAX
        · rw [if_pos hP2] at hw0
          rw [hw0, or_shift_testBit] at hab
          rw [Bool.or_eq_true] at hab
          rcases hab with h | h
          · exact Or.inl h
          · right
            have hb : first = b := of_decide_eq_true h
            simp only [clearPositions, has_third_level, Bool.false_eq_true, if_false,
              List.mem_cons]
            right
            left
            rw [hi64, ← hb]
        · rw [if_neg hP2] at hw0
          rw [hw0] at hab
          exact Or.inl hab
      · rw [hother a ha0 has] at hab
        exact Or.inl hab
  exact ⟨hwf', hinv', hslot, hbits⟩

/-- Word-level description of the 2-tier marking step `alloc2post`. -/
theorem alloc2post_desc (w : List Nat) (first second : Nat)
    (hsidx_lt : 1 + first < w.length)
    (hne_0s : ¬ (0 : Nat) = 1 + first) :
    (alloc2post w first second).length = w.length ∧
    wd (alloc2post w first second) (1 + first)
      = wd w (1 + first) ||| (1 <<< second) ∧
    (if wd (alloc2post w first second) (1 + first) = UMAX
     then wd (alloc2post w first second) 0 = wd w 0 ||| (1 <<< first)
     else wd (alloc2post w first second) 0 = wd w 0) ∧
    (∀ a, a ≠ 0 → a ≠ 1 + first →
      wd (alloc2post w first second) a = wd w a) := by
  simp only [alloc2post]
  have hw1s := wd_setBitW_self hsidx_lt second
  by_cases hP : wd (setBitW w (1 + first) second) (1 + first) = UMAX
  · rw [if_pos hP]
    have hl0 : (0 : Nat) < (setBitW w (1 + first) second).length := by
      rw [length_setBitW]
      omega
    have h2s : wd (setBitW (setBitW w (1 + first) second) 0 first)
        (1 + first) = wd w (1 + first) ||| (1 <<< second) := by
      rw [wd_setBitW_ne hne_0s first, hw1s]
    refine ⟨by rw [length_setBitW, length_setBitW], h2s, ?_, ?_⟩
    · rw [if_pos (by rw [h2s, ← hw1s]; exact hP)]
      rw [wd_setBitW_self hl0 first,
        wd_setBitW_ne (fun hc => hne_0s hc.symm) second]
    · intro a ha0 has
      rw [wd_setBitW_ne (fun hc => ha0 hc.symm) first,
        wd_setBitW_ne (fun hc => has hc.symm) second]
  · rw [if_neg hP]
    refine ⟨by rw [length_setBitW], hw1s, ?_, ?_⟩
    · rw [if_neg (by rw [hw1s, ← hw1s]; exact hP)]
      rw [wd_setBitW_ne (fun hc => hne_0s hc.symm) second]
    · intro a ha0 has
      rw [wd_setBitW_ne (fun hc => has hc.symm) second]

/-- Behaviour of `alloc` on the 2-tier geometry under the invariant,
analogous to `alloc3_spec`. -/
theorem alloc2_spec (w : List Nat) (hlen : reqWords .Small ≤ w.length)
    (hwf : WF w) (hinv : Inv .Small w) :
    (alloc .Small w = .error .NoAvailableSlots ∧
      ∀ j, j < capacity .Small → slotAllocated .Small w j) ∨
    ∃ i w', alloc .Small w = .ok (i, w') ∧ i < capacity .Small ∧
      ¬ slotAllocated .Small w i ∧ (∀ j, j < i → slotAllocated .Small w j) ∧
      w'.length = w.length ∧ WF w' ∧ Inv .Small w' ∧
      (∀ j, j < capacity .Small →
        (slotAllocated .Small w' j ↔ slotAllocated .Small w j ∨ j = i)) ∧
      (∀ a b, (wd w' a).testBit b = true →
        (wd w a).testBit b = true ∨ (a, b) ∈ clearPositions .Small i) ∧
      (∀ a, a ≠ 0 → a ≠ 1 + i / 64 → wd w' a = wd w a) := by
  have hreq : reqWords .Small = 65 := rfl
  have hflb : first_level_bits .Small = 64 := rfl
  have hcap : capacity .Small = 4096 := rfl
  cases hg1 : get_first_zero_bit (wd w 0) (first_level_bits .Small) with
  | error e =>
    obtain ⟨he, hall⟩ := gfzb_err hg1
    subst he
    left
    constructor
    · simp only [alloc, hg1]
    · intro j hj
      have hj64 : j / 64 < first_level_bits .Small := by
        rw [hflb]
        omega
      have htop := hall (j / 64) hj64
      have hmideq := (hinv.1 (j / 64) hj64).mp htop
      simp only [slotAllocated, has_third_level, Bool.false_eq_true, if_false]
      rw [hmideq]
      exact umax_bit_true (by omega)
  | ok first =>
    obtain ⟨hf1, hf2, hf3⟩ := gfzb_ok hg1
    rw [hflb] at hf1
    have hl1 : ¬ w.length ≤ 1 + first := by omega
    have hmidne : wd w (1 + first) ≠ UMAX := fun hc => by
      have := (hinv.1 first (by rw [hflb]; omega)).mpr hc
      rw [hf2] at this
      exact Bool.false_ne_true this
    cases hg2 : get_first_zero_bit (wd w (1 + first)) 64 with
    | error e =>
      exfalso
      obtain ⟨_, hall2⟩ := gfzb_err hg2
      exact hmidne (eq_umax (hwf _) fun j hj => hall2 j hj)
    | ok second =>
      obtain ⟨hs1, hs2, hs3⟩ := gfzb_ok hg2
      right
      have halloc : alloc .Small w = .ok ((first <<< 6) + second,
          alloc2post w first second) := by
        simp only [alloc, hg1, hg2, if_neg hl1, if_true]
      have hidx : (first <<< 6) + second = first * 64 + second := by
        rw [Nat.shiftLeft_eq]
      have hi64 : (first * 64 + second) / 64 = first := by omega
      have hi64m : (first * 64 + second) % 64 = second := by omega
      have hicap : first * 64 + second < capacity .Small := by
        rw [hcap]
        omega
      have hsidx_lt : 1 + first < w.length := by omega
      have hne_0s : ¬ (0 : Nat) = 1 + first := by omega
      have hfree : ¬ slotAllocated .Small w (first * 64 + second) := by
        simp only [slotAllocated, has_third_level, Bool.false_eq_true, if_false]
        rw [hi64, hi64m, hs2]
        exact Bool.false_ne_true
      have hmin : ∀ j, j < first * 64 + second → slotAllocated .Small w j := by
        intro j hj
        simp only [slotAllocated, has_third_level, Bool.false_eq_true, if_false]
        have hcases : j / 64 < first ∨ (j / 64 = first ∧ j % 64 < second) := by
          omega
        rcases hcases with h | ⟨h1, h2⟩
        · have htop := hf3 (j / 64) h
          have hmideq := (hinv.1 (j / 64) (by rw [hflb]; omega)).mp htop
          rw [hmideq]
          exact umax_bit_true (by omega)
        · have hmb := hs3 (j % 64) h2
          rw [h1]
          exact hmb
      have hdesc := alloc2post_desc w first second hsidx_lt hne_0s
      obtain ⟨hlenp, hws, hw0, hother⟩ := hdesc
      obtain ⟨hwf', hinv', hslot, hbits⟩ :=
        alloc2_state_facts w (alloc2post w first second) hwf hinv first second
          hf1 hf2 hs1 hs2 hws hw0 hother
      refine ⟨first * 64 + second, alloc2post w first second, ?_, hicap, hfree,
        hmin, hlenp, hwf', hinv', hslot, hbits, ?_⟩
      · rw [halloc, hidx]
      · intro a ha0 has
        rw [hi64] at has
        exact hother a ha0 has

/-- Unified allocation specification over the three geometries. -/
theorem alloc_spec (mt : MemoryMapType) (w : List Nat)
    (hlen : reqWords mt ≤ w.length) (hwf : WF w) (hinv : Inv mt w) :
    (alloc mt w = .error .NoAvailableSlots ∧
      ∀ j, j < capacity mt → slotAllocated mt w j) ∨
    ∃ i w', alloc mt w = .ok (i, w') ∧ i < capacity mt ∧
      ¬ slotAllocated mt w i ∧ (∀ j, j < i → slotAllocated mt w j) ∧
      w'.length = w.length ∧ WF w' ∧ Inv mt w' ∧
      (∀ j, j < capacity mt →
        (slotAllocated mt w' j ↔ slotAllocated mt w j ∨ j = i)) ∧
      (∀ a b, (wd w' a).testBit b = true →
        (wd w a).testBit b = true ∨ (a, b) ∈ clearPositions mt i) ∧
      (∀ a, (∀ p ∈ clearPositions mt i, a ≠ p.1) → wd w' a = wd w a) := by
  by_cases h3 : has_third_level mt = true
  · rcases alloc3_spec mt h3 w hlen hwf hinv with h | ⟨i, w', h1, h2, h4, h5, h6, h7, h8, h9, h10, h11⟩
    · exact Or.inl h
    · refine Or.inr ⟨i, w', h1, h2, h4, h5, h6, h7, h8, h9, h10, ?_⟩
      intro a hp
      simp only [clearPositions, h3, if_true, List.mem_cons] at hp
      exact h11 a
        (hp (0, i / 4096) (by simp))
        (hp (1 + i / 4096, i % 4096 / 64) (by simp))
        (hp (third_level_base mt + i / 64, i % 64) (by simp))
  · have hsmall : mt = .Small := by
      cases mt
      · simp [has_third_level] at h3
      · simp [has_third_level] at h3
      · rfl
    subst hsmall
    rcases alloc2_spec w hlen hwf hinv with h | ⟨i, w', h1, h2, h4, h5, h6, h7, h8, h9, h10, h11⟩
    · exact Or.inl h
    · refine Or.inr ⟨i, w', h1, h2, h4, h5, h6, h7, h8, h9, h10, ?_⟩
      intro a hp
      simp only [clearPositions, has_third_level, Bool.false_eq_true, if_false,
        List.mem_cons] at hp
      exact h11 a
        (hp (0, i / 64) (by simp))
        (hp (1 + i / 64, i % 64) (by simp))

theorem maxIndex_eq (mt : MemoryMapType) : maxIndex mt = (capacity mt : Int) - 1 := by
  cases mt <;> decide

theorem shiftRight6 (i : Nat) : i >>> 6 = i / 64 := by
  rw [Nat.shiftRight_eq_div_pow]

theorem shiftRight12 (i : Nat) : i >>> 12 = i / 4096 := by
  rw [Nat.shiftRight_eq_div_pow]

theorem and3f (i : Nat) : i &&& 0x3f = i % 64 := by
  have h : (0x3f : Nat) = 2 ^ 6 - 1 := rfl
  rw [h, Nat.and_pow_two_sub_one_eq_mod]

theorem andfff_shift (i : Nat) : (i &&& 0xfff) >>> 6 = i % 4096 / 64 := by
  have h : (0xfff : Nat) = 2 ^ 12 - 1 := rfl
  rw [h, Nat.and_pow_two_sub_one_eq_mod, Nat.shiftRight_eq_div_pow]

/-- Behaviour of `dealloc` on a 3-tier geometry at an in-range index, for
a buffer at least as long as the geometry requires: it succeeds, clears
exactly the three positions of `clearPositions`, unmarks exactly slot `i`,
and preserves the invariant. -/
theorem dealloc3_spec (mt : MemoryMapType) (h3 : has_third_level mt = true)
    (w : List Nat) (hlen : reqWords mt ≤ w.length) (hwf : WF w)
    (i : Nat) (hi : i < capacity mt) :
    ∃ w', dealloc mt w ((i : Int)) = .ok w' ∧
      w'.length = w.length ∧ WF w' ∧ (Inv mt w → Inv mt w') ∧
      (∀ j, j < capacity mt →
        (slotAllocated mt w' j ↔ slotAllocated mt w j ∧ ¬ j = i)) ∧
      (∀ a b, (wd w' a).testBit b = true ↔
        ((wd w a).testBit b = true ∧ ¬ (a, b) ∈ clearPositions mt i)) := by
  obtain ⟨htlb, hreq, hcap, hflbpos, hflb64, hnsmall⟩ := geom3 h3
  have hm := maxIndex_eq mt
  have h1 : ¬ ((i : Int) < 0) := by omega
  have h2 : ¬ (maxIndex mt < (i : Int)) := by omega
  have hdiv64 : i / 64 < first_level_bits mt * 64 := by omega
  have hdiv4096 : i / 4096 < first_level_bits mt := by omega
  have htidx_lt : third_level_base mt + i / 64 < w.length := by omega
  have hsidx_lt : 1 + i / 4096 < w.length := by omega
  have handfff : ∀ n : Nat, n &&& 0xfff = n % 4096 := by
    intro n
    have h : (0xfff : Nat) = 2 ^ 12 - 1 := rfl
    rw [h, Nat.and_pow_two_sub_one_eq_mod]
  have h4 : ¬ (w.length ≤ third_level_base mt + i / 64 ∨
      w.length ≤ 1 + i / 4096) := by
    omega
  have hd : dealloc mt w ((i : Int)) = .ok
      (clearBitW (clearBitW (clearBitW w
        (third_level_base mt + i / 64) (i % 64))
        (1 + i / 4096) (i % 4096 / 64))
        0 (i / 4096)) := by
    simp only [dealloc, Int.toNat_ofNat, shiftRight6, shiftRight12, and3f,
      handfff, if_neg h1, if_neg h2, if_neg hnsmall, if_neg h4]
  set W := clearBitW (clearBitW (clearBitW w
      (third_level_base mt + i / 64) (i % 64))
      (1 + i / 4096) (i % 4096 / 64))
      0 (i / 4096) with hWdef
  have hne_st : ¬ (1 + i / 4096) = third_level_base mt + i / 64 := by omega
  have hne_0t : ¬ (0 : Nat) = third_level_base mt + i / 64 := by omega
  have hne_0s : ¬ (0 : Nat) = 1 + i / 4096 := by omega
  have hlenW : W.length = w.length := by
    rw [hWdef, length_clearBitW, length_clearBitW, length_clearBitW]
  have hWt : wd W (third_level_base mt + i / 64)
      = wd w (third_level_base mt + i / 64) &&& (UMAX - (1 <<< (i % 64))) := by
    rw [hWdef, wd_clearBitW_ne hne_0t, wd_clearBitW_ne hne_st,
      wd_clearBitW_self htidx_lt]
  have hWs : wd W (1 + i / 4096)
      = wd w (1 + i / 4096) &&& (UMAX - (1 <<< (i % 4096 / 64))) := by
    rw [hWdef, wd_clearBitW_ne hne_0s,
      wd_clearBitW_self (by rw [length_clearBitW]; exact hsidx_lt),
      wd_clearBitW_ne (fun hc => hne_st hc.symm)]
  have hW0 : wd W 0 = wd w 0 &&& (UMAX - (1 <<< (i / 4096))) := by
    rw [hWdef,
      wd_clearBitW_self (by rw [length_clearBitW, length_clearBitW]; omega),
      wd_clearBitW_ne (fun hc => hne_0s hc.symm),
      wd_clearBitW_ne (fun hc => hne_0t hc.symm)]
  have hWother : ∀ a, a ≠ 0 → a ≠ 1 + i / 4096 →
      a ≠ third_level_base mt + i / 64 → wd W a = wd w a := by
    intro a ha0 has hat
    rw [hWdef, wd_clearBitW_ne (fun hc => ha0 hc.symm),
      wd_clearBitW_ne (fun hc => has hc.symm),
      wd_clearBitW_ne (fun hc => hat hc.symm)]
  have hwfW : WF W := by
    intro a
    by_cases hat : a = third_level_base mt + i / 64
    · rw [hat, hWt]
      exact lt_of_le_of_lt Nat.and_le_left (hwf _)
    · by_cases has : a = 1 + i / 4096
      · rw [has, hWs]
        exact lt_of_le_of_lt Nat.and_le_left (hwf _)
      · by_cases ha0 : a = 0
        · rw [ha0, hW0]
          exact lt_of_le_of_lt Nat.and_le_left (hwf _)
        · rw [hWother a ha0 has hat]
          exact hwf _
  have hbits : ∀ a b, (wd W a).testBit b = true ↔
      ((wd w a).testBit b = true ∧ ¬ (a, b) ∈ clearPositions mt i) := by
    intro a b
    simp only [clearPositions, h3, if_true, List.mem_cons, List.not_mem_nil, or_false]
    by_cases hat : a = third_level_base mt + i / 64
    · subst hat
      rw [hWt, clearBit_testBit (hwf _) (by omega) b]
      constructor
      · intro h
        rw [Bool.and_eq_true] at h
        refine ⟨h.1, ?_⟩
        intro hmem
        rcases hmem with hmem | hmem | hmem
        · have := congrArg Prod.snd hmem
          simp at this
          subst this
          simp at h
        · have := congrArg Prod.fst hmem
          simp at this
          omega
        · have := congrArg Prod.fst hmem
          simp at this
          omega
      · intro ⟨h, hmem⟩
        rw [Bool.and_eq_true]
        refine ⟨h, ?_⟩
        simp only [Bool.not_eq_eq_eq_not, Bool.not_true, decide_eq_false_iff_not]
        intro hbm
        exact hmem (Or.inl (by rw [hbm]))
    · by_cases has : a = 1 + i / 4096
      · subst has
        rw [hWs, clearBit_testBit (hwf _) (by omega) b]
        constructor
        · intro h
          rw [Bool.and_eq_true] at h
          refine ⟨h.1, ?_⟩
          intro hmem
          rcases hmem with hmem | hmem | hmem
          · exact hne_st (congrArg Prod.fst hmem)
          · have := congrArg Prod.snd hmem
            simp at this
            subst this
            simp at h
          · have := congrArg Prod.fst hmem
            simp at this
        · intro ⟨h, hmem⟩
          rw [Bool.and_eq_true]
          refine ⟨h, ?_⟩
          simp only [Bool.not_eq_eq_eq_not, Bool.not_true, decide_eq_false_iff_not]
          intro hbm
          exact hmem (Or.inr (Or.inl (by rw [hbm])))
      · by_cases ha0 : a = 0
        · subst ha0
          rw [hW0, clearBit_testBit (hwf _) (by omega) b]
          constructor
          · intro h
            rw [Bool.and_eq_true] at h
            refine ⟨h.1, ?_⟩
            intro hmem
            rcases hmem with hmem | hmem | hmem
            · exact hne_0t (congrArg Prod.fst hmem)
            · exact hne_0s (congrArg Prod.fst hmem)
            · have := congrArg Prod.snd hmem
              simp at this
              subst this
              simp at h
          · intro ⟨h, hmem⟩
            rw [Bool.and_eq_true]
            refine ⟨h, ?_⟩
            simp only [Bool.not_eq_eq_eq_not, Bool.not_true, decide_eq_false_iff_not]
            intro hbm
            exact hmem (Or.inr (Or.inr (by rw [hbm])))
        · rw [hWother a ha0 has hat]
          constructor
          · intro h
            refine ⟨h, ?_⟩
            intro hmem
            rcases hmem with hmem | hmem | hmem
            · exact hat (congrArg Prod.fst hmem)
            · exact has (congrArg Prod.fst hmem)
            · exact ha0 (congrArg Prod.fst hmem)
          · exact fun h => h.1
  have hslot : ∀ j, j < capacity mt →
      (slotAllocated mt W j ↔ slotAllocated mt w j ∧ ¬ j = i) := by
    intro j hj
    simp only [slotAllocated, h3, if_true]
    rw [hbits (third_level_base mt + j / 64) (j % 64)]
    simp only [clearPositions, h3, if_true, List.mem_cons, List.not_mem_nil, or_false]
    constructor
    · intro ⟨h, hmem⟩
      refine ⟨h, ?_⟩
      intro hji
      subst hji
      exact hmem (Or.inl rfl)
    · intro ⟨h, hji⟩
      refine ⟨h, ?_⟩
      intro hmem
      rcases hmem with hmem | hmem | hmem
      · have hfst := congrArg Prod.fst hmem
        have hsnd := congrArg Prod.snd hmem
        simp at hfst hsnd
        omega
      · have hfst := congrArg Prod.fst hmem
        simp at hfst
        omega
      · have hfst := congrArg Prod.fst hmem
        simp at hfst
        omega
  have hinvW : Inv mt w → Inv mt W := by
    intro hinv
    constructor
    · intro t htf
      by_cases htq : t = i / 4096
      · subst htq
        rw [hW0, clearBit_testBit (hwf _) (by omega)]
        have hl : ((wd w 0).testBit (i / 4096) && !decide (i / 4096 = i / 4096))
            = false := by simp
        rw [hl]
        have hr : wd W (1 + i / 4096) ≠ UMAX := by
          intro hc
          have hb : (wd W (1 + i / 4096)).testBit (i % 4096 / 64) = true := by
            rw [hc]
            exact umax_bit_true (by omega)
          rw [hWs, clearBit_testBit (hwf _) (by omega)] at hb
          simp at hb
        exact iff_of_false Bool.false_ne_true hr
      · have h0 : (wd W 0).testBit t = (wd w 0).testBit t := by
          rw [hW0, clearBit_testBit (hwf _) (by omega)]
          have : decide (t = i / 4096) = false := by
            simp
            omega
          rw [this]
          simp
        have hs : wd W (1 + t) = wd w (1 + t) :=
          hWother (1 + t) (by omega) (by omega) (by omega)
        rw [h0, hs]
        exact hinv.1 t htf
    · intro _ t htf m hm
      by_cases hts : t = i / 4096 ∧ m = i % 4096 / 64
      · obtain ⟨rfl, rfl⟩ := hts
        rw [hWs, clearBit_testBit (hwf _) (by omega)]
        have hl : ((wd w (1 + i / 4096)).testBit (i % 4096 / 64) &&
            !decide (i % 4096 / 64 = i % 4096 / 64)) = false := by simp
        rw [hl]
        have hword : third_level_base mt + (i / 4096 * 64 + i % 4096 / 64)
            = third_level_base mt + i / 64 := by omega
        rw [hword]
        have hr : wd W (third_level_base mt + i / 64) ≠ UMAX := by
          intro hc
          have hb : (wd W (third_level_base mt + i / 64)).testBit (i % 64) = true := by
            rw [hc]
            exact umax_bit_true (by omega)
          rw [hWt, clearBit_testBit (hwf _) (by omega)] at hb
          simp at hb
        exact iff_of_false Bool.false_ne_true hr
      · by_cases htq : t = i / 4096
        · subst htq
          have hm2 : ¬ m = i % 4096 / 64 := fun hc => hts ⟨rfl, hc⟩
          have hmid : (wd W (1 + i / 4096)).testBit m
              = (wd w (1 + i / 4096)).testBit m := by
            rw [hWs, clearBit_testBit (hwf _) (by omega)]
            have : decide (m = i % 4096 / 64) = false := by
              simp
              omega
            rw [this]
            simp
          have hleaf : wd W (third_level_base mt + (i / 4096 * 64 + m))
              = wd w (third_level_base mt + (i / 4096 * 64 + m)) :=
            hWother _ (by omega) (by omega) (by omega)
          rw [hmid, hleaf]
          exact hinv.2 h3 (i / 4096) htf m hm
        · have hmid : wd W (1 + t) = wd w (1 + t) :=
            hWother _ (by omega) (by omega) (by omega)
          have hleaf : wd W (third_level_base mt + (t * 64 + m))
              = wd w (third_level_base mt + (t * 64 + m)) :=
            hWother _ (by omega) (by omega) (by omega)
          rw [hmid, hleaf]
          exact hinv.2 h3 t htf m hm
  exact ⟨W, hd, hlenW, hwfW, hinvW, hslot, hbits⟩

/-- Behaviour of `dealloc` on the 2-tier geometry at an in-range index,
analogous to `dealloc3_spec`. -/
theorem dealloc2_spec (w : List Nat) (hlen : reqWords .Small ≤ w.length)
    (hwf : WF w) (i : Nat) (hi : i < capacity .Small) :
    ∃ w', dealloc .Small w ((i : Int)) = .ok w' ∧
      w'.length = w.length ∧ WF w' ∧ (Inv .Small w → Inv .Small w') ∧
      (∀ j, j < capacity .Small →
        (slotAllocated .Small w' j ↔ slotAllocated .Small w j ∧ ¬ j = i)) ∧
      (∀ a b, (wd w' a).testBit b = true ↔
        ((wd w a).testBit b = true ∧ ¬ (a, b) ∈ clearPositions .Small i)) := by
  have hreq : reqWords .Small = 65 := rfl
  have hcap : capacity .Small = 4096 := rfl
  rw [hcap] at hi
  have hm : maxIndex .Small = 4095 := rfl
  have h1 : ¬ ((i : Int) < 0) := by omega
  have h2 : ¬ (maxIndex .Small < (i : Int)) := by
    rw [hm]
    omega
  have hsidx_lt : 1 + i / 64 < w.length := by omega
  have h4 : ¬ (w.length ≤ 1 + i / 64) := by omega
  have hd : dealloc .Small w ((i : Int)) = .ok
      (clearBitW (clearBitW w (1 + i / 64) (i % 64)) 0 (i / 64)) := by
    simp only [dealloc, Int.toNat_ofNat, shiftRight6, and3f,
      if_neg h1, if_neg h2, if_true, if_neg h4]
  set W := clearBitW (clearBitW w (1 + i / 64) (i % 64)) 0 (i / 64) with hWdef
  have hne_0s : ¬ (0 : Nat) = 1 + i / 64 := by omega
  have hlenW : W.length = w.length := by
    rw [hWdef, length_clearBitW, length_clearBitW]
  have hWs : wd W (1 + i / 64)
      = wd w (1 + i / 64) &&& (UMAX - (1 <<< (i % 64))) := by
    rw [hWdef, wd_clearBitW_ne hne_0s, wd_clearBitW_self hsidx_lt]
  have hW0 : wd W 0 = wd w 0 &&& (UMAX - (1 <<< (i / 64))) := by
    rw [hWdef,
      wd_clearBitW_self (by rw [length_clearBitW]; omega),
      wd_clearBitW_ne (fun hc => hne_0s hc.symm)]
  have hWother : ∀ a, a ≠ 0 → a ≠ 1 + i / 64 → wd W a = wd w a := by
    intro a ha0 has
    rw [hWdef, wd_clearBitW_ne (fun hc => ha0 hc.symm),
      wd_clearBitW_ne (fun hc => has hc.symm)]
  have hwfW : WF W := by
    intro a
    by_cases has : a = 1 + i / 64
    · rw [has, hWs]
      exact lt_of_le_of_lt Nat.and_le_left (hwf _)
    · by_cases ha0 : a = 0
      · rw [ha0, hW0]
        exact lt_of_le_of_lt Nat.and_le_left (hwf _)
      · rw [hWother a ha0 has]
        exact hwf _
  have hbits : ∀ a b, (wd W a).testBit b = true ↔
      ((wd w a).testBit b = true ∧ ¬ (a, b) ∈ clearPositions .Small i) := by
    intro a b
    simp only [clearPositions, has_third_level, Bool.false_eq_true, if_false,
      List.mem_cons, List.not_mem_nil, or_false]
    by_cases has : a = 1 + i / 64
    · subst has
      rw [hWs, clearBit_testBit (hwf _) (by omega) b]
      constructor
      · intro h
        rw [Bool.and_eq_true] at h
        refine ⟨h.1, ?_⟩
        intro hmem
        rcases hmem with hmem | hmem
        · have := congrArg Prod.snd hmem
          simp at this
          subst this
          simp at h
        · have := congrArg Prod.fst hmem
          simp at this
      · intro ⟨h, hmem⟩
        rw [Bool.and_eq_true]
        refine ⟨h, ?_⟩
        simp only [Bool.not_eq_eq_eq_not, Bool.not_true, decide_eq_false_iff_not]
        intro hbm
        exact hmem (Or.inl (by rw [hbm]))
    · by_cases ha0 : a = 0
      · subst ha0
        rw [hW0, clearBit_testBit (hwf _) (by omega) b]
        constructor
        · intro h
          rw [Bool.and_eq_true] at h
          refine ⟨h.1, ?_⟩
          intro hmem
          rcases hmem with hmem | hmem
          · exact hne_0s (congrArg Prod.fst hmem)
          · have := congrArg Prod.snd hmem
            simp at this
            subst this
            simp at h
        · intro ⟨h, hmem⟩
          rw [Bool.and_eq_true]
          refine ⟨h, ?_⟩
          simp only [Bool.not_eq_eq_eq_not, Bool.not_true, decide_eq_false_iff_not]
          intro hbm
          exact hmem (Or.inr (by rw [hbm]))
      · rw [hWother a ha0 has]
        constructor
        · intro h
          refine ⟨h, ?_⟩
          intro hmem
          rcases hmem with hmem | hmem
          · exact has (congrArg Prod.fst hmem)
          · exact ha0 (congrArg Prod.fst hmem)
        · exact fun h => h.1
  have hslot : ∀ j, j < capacity .Small →
      (slotAllocated .Small W j ↔ slotAllocated .Small w j ∧ ¬ j = i) := by
    intro j hj
    rw [hcap] at hj
    simp only [slotAllocated, has_third_level, Bool.false_eq_true, if_false]
    rw [hbits (1 + j / 64) (j % 64)]
    simp only [clearPositions, has_third_level, Bool.false_eq_true, if_false,
      List.mem_cons, List.not_mem_nil, or_false]
    constructor
    · intro ⟨h, hmem⟩
      refine ⟨h, ?_⟩
      intro hji
      subst hji
      exact hmem (Or.inl rfl)
    · intro ⟨h, hji⟩
      refine ⟨h, ?_⟩
      intro hmem
      rcases hmem with hmem | hmem
      · have hfst := congrArg Prod.fst hmem
        have hsnd := congrArg Prod.snd hmem
        simp at hfst hsnd
        omega
      · have hfst := congrArg Prod.fst hmem
        simp at hfst
  have hinvW : Inv .Small w → Inv .Small W := by
    intro hinv
    constructor
    · intro t htf
      have htf' : t < 64 := htf
      by_cases htq : t = i / 64
      · subst htq
        rw [hW0, clearBit_testBit (hwf _) (by omega)]
        have hl : ((wd w 0).testBit (i / 64) && !decide (i / 64 = i / 64))
            = false := by simp
        rw [hl]
        have hr : wd W (1 + i / 64) ≠ UMAX := by
          intro hc
          have hb : (wd W (1 + i / 64)).testBit (i % 64) = true := by
            rw [hc]
            exact umax_bit_true (by omega)
          rw [hWs, clearBit_testBit (hwf _) (by omega)] at hb
          simp at hb
        exact iff_of_false Bool.false_ne_true hr
      · have h0 : (wd W 0).testBit t = (wd w 0).testBit t := by
          rw [hW0, clearBit_testBit (hwf _) (by omega)]
          have : decide (t = i / 64) = false := by
            simp
            omega
          rw [this]
          simp
        have hs : wd W (1 + t) = wd w (1 + t) :=
          hWother (1 + t) (by omega) (by omega)
        rw [h0, hs]
        exact hinv.1 t htf
    · intro hc
      simp [has_third_level] at hc
  exact ⟨W, hd, hlenW, hwfW, hinvW, hslot, hbits⟩

/-- Unified deallocation specification over the three geometries. -/
theorem dealloc_spec (mt : MemoryMapType) (w : List Nat)
    (hlen : reqWords mt ≤ w.length) (hwf : WF w)
    (i : Nat) (hi : i < capacity mt) :
    ∃ w', dealloc mt w ((i : Int)) = .ok w' ∧
      w'.length = w.length ∧ WF w' ∧ (Inv mt w → Inv mt w') ∧
      (∀ j, j < capacity mt →
        (slotAllocated mt w' j ↔ slotAllocated mt w j ∧ ¬ j = i)) ∧
      (∀ a b, (wd w' a).testBit b = true ↔
        ((wd w a).testBit b = true ∧ ¬ (a, b) ∈ clearPositions mt i)) := by
  by_cases h3 : has_third_level mt = true
  · exact dealloc3_spec mt h3 w hlen hwf i hi
  · have hsmall : mt = .Small := by
      cases mt
      · simp [has_third_level] at h3
      · simp [has_third_level] at h3
      · rfl
    subst hsmall
    exact dealloc2_spec w hlen hwf i hi

theorem zeroState_wf (mt : MemoryMapType) : WF (zeroState mt) := by
  intro a
  rw [wd_zeroState]
  exact Nat.two_pow_pos 64

theorem umax_ne_zero : ¬ (0 : Nat) = UMAX := by decide

theorem zeroState_inv (mt : MemoryMapType) : Inv mt (zeroState mt) := by
  constructor
  · intro t ht
    rw [wd_zeroState, wd_zeroState]
    exact iff_of_false (by simp [Nat.zero_testBit]) umax_ne_zero
  · intro _ t ht m hm
    rw [wd_zeroState, wd_zeroState]
    exact iff_of_false (by simp [Nat.zero_testBit]) umax_ne_zero

theorem slotAllocated_zeroState (mt : MemoryMapType) (j : Nat) :
    ¬ slotAllocated mt (zeroState mt) j := by
  unfold slotAllocated
  split <;> rw [wd_zeroState] <;> simp [Nat.zero_testBit]

/-- Bundle of facts about the buffer reached by `n` allocations from the
all-zero buffer: length and well-formedness are preserved, the invariant
holds, exactly the slots below `n` are allocated, and every set bit lies
among the positions the deallocations of `0..n-1` would clear. -/
def StateOk (mt : MemoryMapType) (n : Nat) : Prop :=
  (stateAfter mt n).length = reqWords mt ∧ WF (stateAfter mt n) ∧
  Inv mt (stateAfter mt n) ∧
  (∀ j, j < capacity mt → (slotAllocated mt (stateAfter mt n) j ↔ j < n)) ∧
  (∀ a b, (wd (stateAfter mt n) a).testBit b = true →
    ∃ k, k < n ∧ (a, b) ∈ clearPositions mt k)

theorem stateOk_zero (mt : MemoryMapType) : StateOk mt 0 := by
  refine ⟨length_zeroState mt, zeroState_wf mt, zeroState_inv mt, ?_, ?_⟩
  · intro j hj
    exact iff_of_false (slotAllocated_zeroState mt j) (by omega)
  · intro a b h
    rw [show stateAfter mt 0 = zeroState mt from rfl, wd_zeroState] at h
    simp [Nat.zero_testBit] at h

theorem stateOk_step (mt : MemoryMapType) (n : Nat) (h : StateOk mt n)
    (hn : n < capacity mt) :
    alloc mt (stateAfter mt n) = .ok (n, stateAfter mt (n + 1)) ∧
      StateOk mt (n + 1) := by
  obtain ⟨hl, hw, hi, hs, hb⟩ := h
  rcases alloc_spec mt (stateAfter mt n) (by rw [hl]) hw hi with
    ⟨herr, hall⟩ | ⟨k, w', ha, hk1, hk2, hk3, hk4, hk5, hk6, hk7, hk8, hk9⟩
  · exfalso
    have := (hs n hn).mp (hall n hn)
    omega
  · have hkn : k = n := by
      have h1 : ¬ k < n := fun hc => hk2 ((hs k hk1).mpr hc)
      by_contra hc
      have hnk : n < k := by omega
      have := (hs n hn).mp (hk3 n hnk)
      omega
    subst hkn
    have hstate : stateAfter mt (k + 1) = w' := by
      show (allocRun mt (stateAfter mt k)).2 = w'
      rw [allocRun, ha]
    refine ⟨by rw [hstate]; exact ha, ?_⟩
    unfold StateOk
    rw [hstate]
    refine ⟨by rw [hk4, hl], hk5, hk6, ?_, ?_⟩
    · intro j hj
      rw [hk7 j hj, hs j hj]
      omega
    · intro a b hab
      rcases hk8 a b hab with h | h
      · obtain ⟨k', hk', hm⟩ := hb a b h
        exact ⟨k', by omega, hm⟩
      · exact ⟨k, by omega, h⟩

theorem stateOk_all (mt : MemoryMapType) :
    ∀ n, n ≤ capacity mt → StateOk mt n := by
  intro n
  induction n with
  | zero => intro _; exact stateOk_zero mt
  | succ n ih =>
    intro hn1
    exact (stateOk_step mt n (ih (by omega)) (by omega)).2

theorem alloc_at (mt : MemoryMapType) (n : Nat) (hn : n < capacity mt) :
    alloc mt (stateAfter mt n) = .ok (n, stateAfter mt (n + 1)) :=
  (stateOk_step mt n (stateOk_all mt n (le_of_lt hn)) hn).1

theorem alloc_at_capacity (mt : MemoryMapType) :
    alloc mt (stateAfter mt (capacity mt)) = .error .NoAvailableSlots := by
  obtain ⟨hl, hw, hi, hs, _⟩ := stateOk_all mt (capacity mt) (Nat.le_refl _)
  rcases alloc_spec mt (stateAfter mt (capacity mt)) (by rw [hl]) hw hi with
    ⟨herr, _⟩ | ⟨k, w', _, hk1, hk2, _⟩
  · exact herr
  · exact absurd ((hs k hk1).mpr hk1) hk2

/-- Buffer reached by deallocating the indices of `l` in order. -/
def deallocFold (mt : MemoryMapType) (l : List Nat) (w : List Nat) : List Nat :=
  l.foldl (fun s i => (deallocRun mt s ((i : Int))).2) w

/-- If every set bit of the buffer lies among the positions cleared by the
deallocations still to come, the fold ends in the all-zero buffer. -/
theorem dealloc_fold_clears (mt : MemoryMapType) :
    ∀ (l : List Nat) (w : List Nat),
    reqWords mt ≤ w.length → WF w →
    (∀ i, i ∈ l → i < capacity mt) →
    (∀ a b, (wd w a).testBit b = true →
      ∃ i, i ∈ l ∧ (a, b) ∈ clearPositions mt i) →
    (deallocFold mt l w).length = w.length ∧
      ∀ a, wd (deallocFold mt l w) a = 0 := by
  intro l
  induction l with
  | nil =>
    intro w hlen hwf _ hbits
    refine ⟨rfl, ?_⟩
    intro a
    apply Nat.eq_of_testBit_eq
    intro b
    rw [Nat.zero_testBit]
    cases hb : (wd w a).testBit b
    · exact hb
    · obtain ⟨i, hi, _⟩ := hbits a b hb
      exact absurd hi (List.not_mem_nil i)
  | cons i l ih =>
    intro w hlen hwf hmem hbits
    have hi : i < capacity mt := hmem i (List.mem_cons_self i l)
    obtain ⟨w', hd, hlen', hwf', _, _, hbits'⟩ := dealloc_spec mt w hlen hwf i hi
    have hfold : deallocFold mt (i :: l) w = deallocFold mt l w' := by
      have hstep : deallocFold mt (i :: l) w
          = deallocFold mt l ((deallocRun mt w ((i : Int))).2) := rfl
      have hrun : (deallocRun mt w ((i : Int))).2 = w' := by
        rw [deallocRun, hd]
      rw [hstep, hrun]
    rw [hfold]
    have h1 : reqWords mt ≤ w'.length := by
      rw [hlen']
      exact hlen
    have h3 : ∀ i', i' ∈ l → i' < capacity mt := fun i' hm =>
      hmem i' (List.mem_cons_of_mem _ hm)
    have h4 : ∀ a b, (wd w' a).testBit b = true →
        ∃ i', i' ∈ l ∧ (a, b) ∈ clearPositions mt i' := by
      intro a b hab
      rw [hbits' a b] at hab
      obtain ⟨hwb, hnot⟩ := hab
      obtain ⟨i', hi'm, hi'c⟩ := hbits a b hwb
      rcases List.mem_cons.mp hi'm with heq | hmem'
      · subst heq
        exact absurd hi'c hnot
      · exact ⟨i', hmem', hi'c⟩
    obtain ⟨hl2, hz⟩ := ih w' h1 hwf' h3 h4
    exact ⟨by rw [hl2, hlen'], hz⟩

theorem eq_zeroState_of (mt : MemoryMapType) {w : List Nat}
    (hlen : w.length = reqWords mt) (hz : ∀ a, wd w a = 0) :
    w = zeroState mt := by
  apply List.ext_getElem (by rw [hlen, length_zeroState])
  intro a h1 h2
  rw [← wd_eq_getElem h1, hz a, ← wd_eq_getElem h2, wd_zeroState]

theorem eq_of_wd_eq {v w : List Nat} (hlen : v.length = w.length)
    (h : ∀ a, wd v a = wd w a) : v = w := by
  apply List.ext_getElem hlen
  intro a h1 h2
  rw [← wd_eq_getElem h1, ← wd_eq_getElem h2, h a]

theorem clear_unset_bit {x : Nat} (hx : x < 2 ^ 64) {k : Nat} (hk : k < 64)
    (hb : x.testBit k = false) : x &&& (UMAX - (1 <<< k)) = x := by
  apply Nat.eq_of_testBit_eq
  intro b
  rw [clearBit_testBit hx hk b]
  by_cases hbk : b = k
  · subst hbk
    rw [hb]
    simp
  · simp [hbk]

theorem clear_set_or {x : Nat} (hx : x < 2 ^ 64) {k : Nat} (hk : k < 64)
    (hb : x.testBit k = false) : (x ||| (1 <<< k)) &&& (UMAX - (1 <<< k)) = x := by
  apply Nat.eq_of_testBit_eq
  intro b
  rw [clearBit_testBit (Nat.or_lt_two_pow hx (one_shift_lt64 hk)) hk b,
    or_shift_testBit]
  by_cases hbk : b = k
  · subst hbk
    rw [hb]
    simp
  · have : decide (k = b) = false := by
      simp
      omega
    rw [this]
    simp [hbk]

/-- Deallocating the index just returned by a successful 2-tier alloc
restores the previous buffer exactly. -/
theorem roundtrip2 (w : List Nat) (hwf : WF w) (first second : Nat)
    (hf1 : first < 64)
    (hf2 : (wd w 0).testBit first = false)
    (hs1 : second < 64)
    (hs2 : (wd w (1 + first)).testBit second = false)
    (hsidx_lt : 1 + first < w.length) :
    dealloc .Small (alloc2post w first second)
      (((first * 64 + second : Nat)) : Int) = .ok w := by
  have hne_0s : ¬ (0 : Nat) = 1 + first := by omega
  obtain ⟨hlenp, hws, hw0, hother⟩ := alloc2post_desc w first second hsidx_lt hne_0s
  have hi64 : (first * 64 + second) / 64 = first := by omega
  have hi64m : (first * 64 + second) % 64 = second := by omega
  have h1 : ¬ (((first * 64 + second : Nat) : Int) < 0) := by omega
  have h2 : ¬ (maxIndex .Small < ((first * 64 + second : Nat) : Int)) := by
    have hm : maxIndex .Small = 4095 := rfl
    rw [hm]
    omega
  have h4 : ¬ ((alloc2post w first second).length ≤ 1 + first) := by
    rw [hlenp]
    omega
  have hd : dealloc .Small (alloc2post w first second)
      (((first * 64 + second : Nat)) : Int) = .ok
      (clearBitW (clearBitW (alloc2post w first second)
        (1 + first) second) 0 first) := by
    simp only [dealloc, Int.toNat_ofNat, shiftRight6, and3f,
      if_neg h1, if_neg h2, if_true, if_neg h4, hi64, hi64m]
  rw [hd]
  have hchain : clearBitW (clearBitW (alloc2post w first second)
      (1 + first) second) 0 first = w := by
    apply eq_of_wd_eq
    · rw [length_clearBitW, length_clearBitW, hlenp]
    · intro a
      by_cases has : a = 1 + first
      · subst has
        rw [wd_clearBitW_ne hne_0s,
          wd_clearBitW_self (by rw [hlenp]; exact hsidx_lt), hws,
          clear_set_or (hwf _) hs1 hs2]
      · by_cases ha0 : a = 0
        · subst ha0
          rw [wd_clearBitW_self
              (by rw [length_clearBitW, hlenp]; omega),
            wd_clearBitW_ne (fun hc => hne_0s hc.symm)]
          by_cases hP : wd (alloc2post w first second) (1 + first) = UMAX
          · rw [if_pos hP] at hw0
            rw [hw0, clear_set_or (hwf _) hf1 hf2]
          · rw [if_neg hP] at hw0
            rw [hw0, clear_unset_bit (hwf _) hf1 hf2]
        · rw [wd_clearBitW_ne (fun hc => ha0 hc.symm),
            wd_clearBitW_ne (fun hc => has hc.symm), hother a ha0 has]
  rw [hchain]

/-- Deallocating the index just returned by a successful 3-tier alloc
restores the previous buffer exactly. -/
theorem roundtrip3 (mt : MemoryMapType) (h3 : has_third_level mt = true)
    (w : List Nat) (hwf : WF w) (first second third : Nat)
    (hf1 : first < first_level_bits mt)
    (hf2 : (wd w 0).testBit first = false)
    (hs1 : second < 64)
    (hs2 : (wd w (1 + first)).testBit second = false)
    (ht1 : third < 64)
    (ht2 : (wd w (third_level_base mt + (first * 64 + second))).testBit third = false)
    (hsidx_lt : 1 + first < w.length)
    (htidx_lt : third_level_base mt + (first * 64 + second) < w.length) :
    dealloc mt (alloc3post mt w first second third)
      (((first * 4096 + second * 64 + third : Nat)) : Int) = .ok w := by
  obtain ⟨htlb, hreq, hcap, hflbpos, hflb64, hnsmall⟩ := geom3 h3
  have hne_st : ¬ (1 + first) = third_level_base mt + (first * 64 + second) := by
    omega
  have hne_0t : ¬ (0 : Nat) = third_level_base mt + (first * 64 + second) := by
    omega
  have hne_0s : ¬ (0 : Nat) = 1 + first := by omega
  have hmidne : wd w (1 + first) ≠ UMAX := by
    intro hc
    have := umax_bit_true hs1
    rw [← hc, hs2] at this
    exact Bool.false_ne_true this
  obtain ⟨hlenp, hwt, hws, hw0, hother⟩ :=
    alloc3post_desc mt w first second third htidx_lt hsidx_lt hne_st hne_0t
      hne_0s hmidne
  have hi64 : (first * 4096 + second * 64 + third) / 64 = first * 64 + second := by
    omega
  have hi64m : (first * 4096 + second * 64 + third) % 64 = third := by omega
  have hi4096 : (first * 4096 + second * 64 + third) / 4096 = first := by omega
  have hifff : (first * 4096 + second * 64 + third) % 4096 / 64 = second := by
    omega
  have h1 : ¬ (((first * 4096 + second * 64 + third : Nat) : Int) < 0) := by
    omega
  have h2 : ¬ (maxIndex mt < ((first * 4096 + second * 64 + third : Nat) : Int)) := by
    have hm := maxIndex_eq mt
    omega
  have h4 : ¬ ((alloc3post mt w first second third).length ≤
        third_level_base mt + (first * 64 + second) ∨
      (alloc3post mt w first second third).length ≤ 1 + first) := by
    rw [hlenp]
    omega
  have hd : dealloc mt (alloc3post mt w first second third)
      (((first * 4096 + second * 64 + third : Nat)) : Int) = .ok
      (clearBitW (clearBitW (clearBitW (alloc3post mt w first second third)
        (third_level_base mt + (first * 64 + second)) third)
        (1 + first) second) 0 first) := by
    have handfff : ∀ n : Nat, n &&& 0xfff = n % 4096 := by
      intro n
      have h : (0xfff : Nat) = 2 ^ 12 - 1 := rfl
      rw [h, Nat.and_pow_two_sub_one_eq_mod]
    simp only [dealloc, Int.toNat_ofNat, shiftRight6, shiftRight12, and3f,
      handfff, if_neg h1, if_neg h2, if_neg hnsmall, if_neg h4, hi64, hi64m,
      hi4096, hifff]
  rw [hd]
  have hchain : clearBitW (clearBitW (clearBitW (alloc3post mt w first second third)
      (third_level_base mt + (first * 64 + second)) third)
      (1 + first) second) 0 first = w := by
    apply eq_of_wd_eq
    · rw [length_clearBitW, length_clearBitW, length_clearBitW, hlenp]
    · intro a
      by_cases hat : a = third_level_base mt + (first * 64 + second)
      · subst hat
        rw [wd_clearBitW_ne hne_0t, wd_clearBitW_ne hne_st,
          wd_clearBitW_self (by rw [hlenp]; exact htidx_lt), hwt,
          clear_set_or (hwf _) ht1 ht2]
      · by_cases has : a = 1 + first
        · subst has
          rw [wd_clearBitW_ne hne_0s,
            wd_clearBitW_self
              (by rw [length_clearBitW, hlenp]; exact hsidx_lt),
            wd_clearBitW_ne (fun hc => hne_st hc.symm)]
          by_cases hP : wd (alloc3post mt w first second third)
              (third_level_base mt + (first * 64 + second)) = UMAX
          · rw [if_pos hP] at hws
            rw [hws, clear_set_or (hwf _) hs1 hs2]
          · rw [if_neg hP] at hws
            rw [hws, clear_unset_bit (hwf _) hs1 hs2]
        · by_cases ha0 : a = 0
          · subst ha0
            rw [wd_clearBitW_self
                (by rw [length_clearBitW, length_clearBitW, hlenp]; omega),
              wd_clearBitW_ne (fun hc => hne_0s hc.symm),
              wd_clearBitW_ne (fun hc => hne_0t hc.symm)]
            by_cases hP : wd (alloc3post mt w first second third) (1 + first)
                = UMAX
            · rw [if_pos hP] at hw0
              rw [hw0, clear_set_or (hwf _) (by omega) hf2]
            · rw [if_neg hP] at hw0
              rw [hw0, clear_unset_bit (hwf _) (by omega) hf2]
          · rw [wd_clearBitW_ne (fun hc => ha0 hc.symm),
              wd_clearBitW_ne (fun hc => has hc.symm),
              wd_clearBitW_ne (fun hc => hat hc.symm),
              hother a ha0 has hat]
  rw [hchain]

/-- Decomposition of a successful `alloc` into the control path it took. -/
theorem alloc_ok_cases (mt : MemoryMapType) (w : List Nat) (i : Nat)
    (w' : List Nat) (h : alloc mt w = .ok (i, w')) :
    (mt = .Small ∧ ∃ first second,
      get_first_zero_bit (wd w 0) (first_level_bits mt) = .ok first ∧
      ¬ (w.length ≤ 1 + first) ∧
      get_first_zero_bit (wd w (1 + first)) 64 = .ok second ∧
      i = first * 64 + second ∧ w' = alloc2post w first second) ∨
    (has_third_level mt = true ∧ ∃ first second third,
      get_first_zero_bit (wd w 0) (first_level_bits mt) = .ok first ∧
      ¬ (w.length ≤ 1 + first) ∧
      get_first_zero_bit (wd w (1 + first)) 64 = .ok second ∧
      ¬ (w.length ≤ third_level_base mt + (first * 64 + second)) ∧
      get_first_zero_bit
        (wd w (third_level_base mt + (first * 64 + second))) 64 = .ok third ∧
      i = first * 4096 + second * 64 + third ∧
      w' = alloc3post mt w first second third) := by
  unfold alloc at h
  split at h
  · exact absurd h (by simp)
  next first hg1 =>
    split at h
    · exact absurd h (by simp)
    next hl1 =>
      split at h
      · exact absurd h (by simp)
      next second hg2 =>
        split at h
        next hsm =>
          rw [Except.ok.injEq, Prod.mk.injEq] at h
          obtain ⟨hi, hw'⟩ := h
          exact Or.inl ⟨hsm, first, second, hg1, hl1, hg2,
            by rw [← hi, Nat.shiftLeft_eq], hw'.symm⟩
        next hsm =>
          have h3 : has_third_level mt = true := by
            cases mt
            · rfl
            · rfl
            · exact absurd rfl hsm
          split at h
          · exact absurd h (by simp)
          next hl2 =>
            split at h
            · exact absurd h (by simp)
            next third hg3 =>
              rw [Except.ok.injEq, Prod.mk.injEq] at h
              obtain ⟨hi, hw'⟩ := h
              exact Or.inr ⟨h3, first, second, third, hg1, hl1, hg2, hl2, hg3,
                by rw [← hi, Nat.shiftLeft_eq, Nat.shiftLeft_eq], hw'.symm⟩

theorem length_alloc2post (w : List Nat) (first second : Nat) :
    (alloc2post w first second).length = w.length := by
  simp only [alloc2post]
  split
  · rw [length_setBitW, length_setBitW]
  · rw [length_setBitW]

theorem length_alloc3post (mt : MemoryMapType) (w : List Nat)
    (first second third : Nat) :
    (alloc3post mt w first second third).length = w.length := by
  simp only [alloc3post]
  split
  · split
    · rw [length_setBitW, length_setBitW, length_setBitW]
    · rw [length_setBitW, length_setBitW]
  · rw [length_setBitW]

theorem flb_lt_req (mt : MemoryMapType) :
    first_level_bits mt < reqWords mt := by
  cases mt <;> decide

/-- For a buffer at least as long as the geometry requires, the only
error `alloc` can return is `NoAvailableSlots`. -/
theorem alloc_err (mt : MemoryMapType) (w : List Nat)
    (hlen : reqWords mt ≤ w.length) {e : MemoryMapError}
    (h : alloc mt w = .error e) : e = .NoAvailableSlots := by
  have hflbreq := flb_lt_req mt
  unfold alloc at h
  split at h
  next e' hg1 =>
    cases h
    exact (gfzb_err hg1).1
  next first hg1 =>
    split at h
    next hl1 =>
      exfalso
      have hf1 := (gfzb_ok hg1).1
      omega
    next hl1 =>
      split at h
      next e' hg2 =>
        cases h
        exact (gfzb_err hg2).1
      next second hg2 =>
        split at h
        next hsm => exact absurd h (by simp)
        next hsm =>
          have h3 : has_third_level mt = true := by
            cases mt
            · rfl
            · rfl
            · exact absurd rfl hsm
          obtain ⟨htlb, hreq, hcap, hflbpos, hflb64, _⟩ := geom3 h3
          split at h
          next hl2 =>
            exfalso
            have hf1 := (gfzb_ok hg1).1
            have hs1 := (gfzb_ok hg2).1
            omega
          next hl2 =>
            split at h
            next e' hg3 =>
              cases h
              exact (gfzb_err hg3).1
            next third hg3 => exact absurd h (by simp)

/-- C3: for every 64-bit word and every `significant_bits ≤ 64` — including
every value strictly between 33 and 63 — `get_first_zero_bit` returns the
smallest position below `significant_bits` whose bit is 0, and returns
`NoAvailableSlots` exactly when all the low `significant_bits` bits are 1. -/
theorem C3_kernel_correct (pattern bits : Nat) (hp : pattern < 2 ^ 64)
    (hb : bits ≤ 64) :
    (∀ j, get_first_zero_bit pattern bits = .ok j →
      (j < bits ∧ pattern.testBit j = false ∧
        ∀ k, k < j → pattern.testBit k = true)) ∧
    (get_first_zero_bit pattern bits = .error .NoAvailableSlots ↔
      ∀ k, k < bits → pattern.testBit k = true) := by
  refine ⟨fun j h => gfzb_ok h, ?_, gfzb_err_of_all⟩
  intro h
  exact (gfzb_err h).2

theorem C3_kernel_correct_witness :
    get_first_zero_bit 0xffffffffff 40 = .error .NoAvailableSlots :=
  (C3_kernel_correct 0xffffffffff 40 (by decide) (by decide)).2.mpr (by decide)

/-- C5: `MemoryMapImpl::new` returns `InvalidOffset` iff the offset is at
least the region length; otherwise `AlignmentError` iff the region start
address plus offset is not a multiple of 8; otherwise `InsufficientMemory`
iff fewer bytes remain than the geometry's word count times 8 (65 words
for Small, 261 for Trade, 4161 for Standard); otherwise a live allocator. -/
theorem C5_new_validation (memLen addr offset : Nat) (mt : MemoryMapType) :
    (newCheck memLen addr offset mt = .error .InvalidOffset ↔
      memLen ≤ offset) ∧
    (offset < memLen →
      (newCheck memLen addr offset mt = .error .AlignmentError ↔
        (addr + offset) % 8 ≠ 0)) ∧
    (offset < memLen → (addr + offset) % 8 = 0 →
      (newCheck memLen addr offset mt = .error .InsufficientMemory ↔
        memLen - offset < reqWords mt * 8)) ∧
    (offset < memLen → (addr + offset) % 8 = 0 →
      reqWords mt * 8 ≤ memLen - offset →
      newCheck memLen addr offset mt = .ok (offset, mt)) ∧
    reqWords .Small = 65 ∧ reqWords .Trade = 261 ∧ reqWords .Standard = 4161 := by
  have hsize : required_size mt = reqWords mt * 8 := by cases mt <;> decide
  unfold newCheck
  rw [hsize]
  refine ⟨?_, ?_, ?_, ?_, rfl, rfl, rfl⟩
  · by_cases h1 : memLen ≤ offset
    · simp [h1]
    · simp only [if_neg h1]
      constructor
      · intro h
        split at h
        · simp at h
        · split at h <;> simp at h
      · intro h
        exact absurd h h1
  · intro h1
    rw [if_neg (by omega)]
    by_cases h2 : (addr + offset) % 8 ≠ 0
    · simp [h2]
    · simp only [if_neg h2]
      constructor
      · intro h
        split at h <;> simp at h
      · intro h
        exact absurd h h2
  · intro h1 h2
    rw [if_neg (by omega), if_neg (by omega)]
    by_cases h3 : memLen - offset < reqWords mt * 8
    · simp [h3]
    · simp only [if_neg h3]
      constructor
      · intro h
        simp at h
      · intro h
        exact absurd h h3
  · intro h1 h2 h3
    rw [if_neg (by omega), if_neg (by omega), if_neg (by omega)]

theorem C5_new_validation_witness :
    newCheck 1024 0 8 .Small = .ok (8, .Small) :=
  (C5_new_validation 1024 0 8 .Small).2.2.2.1 (by decide) (by decide) (by decide)

/-- C10: for a buffer at least as long as the geometry requires — the
situation after a successful construction — `alloc` returns either a slot
index or `NoAvailableSlots`; its defensive in-body `InsufficientMemory`
branches never fire, and it never touches words outside the buffer. -/
theorem C10_alloc_no_out_of_bounds (mt : MemoryMapType) (w : List Nat)
    (hlen : reqWords mt ≤ w.length) :
    ((∃ i w', alloc mt w = .ok (i, w')) ∨
      alloc mt w = .error .NoAvailableSlots) ∧
    (∀ i w', alloc mt w = .ok (i, w') → w'.length = w.length) := by
  constructor
  · cases halloc : alloc mt w with
    | ok p =>
      obtain ⟨i, w'⟩ := p
      exact Or.inl ⟨i, w', rfl⟩
    | error e =>
      have := alloc_err mt w hlen halloc
      subst this
      exact Or.inr rfl
  · intro i w' h
    rcases alloc_ok_cases mt w i w' h with
      ⟨_, f, s, _, _, _, _, hw'⟩ | ⟨_, f, s, t, _, _, _, _, _, _, hw'⟩
    · rw [hw']
      exact length_alloc2post w f s
    · rw [hw']
      exact length_alloc3post mt w f s t

theorem C10_alloc_no_out_of_bounds_witness :
    (∃ i w', alloc .Small (zeroState .Small) = .ok (i, w')) ∨
      alloc .Small (zeroState .Small) = .error .NoAvailableSlots :=
  (C10_alloc_no_out_of_bounds .Small (zeroState .Small)
    (by rw [length_zeroState])).1

/-- C2: every `alloc` and every `dealloc` call — successful or returning an
error — takes a buffer satisfying the parent-full hierarchy invariant to a
buffer satisfying it again. -/
theorem C2_invariant_preserved (mt : MemoryMapType) (w : List Nat)
    (hlen : reqWords mt ≤ w.length) (hwf : WF w) (hinv : Inv mt w) :
    Inv mt (allocRun mt w).2 ∧
      ∀ index : Int, Inv mt (deallocRun mt w index).2 := by
  constructor
  · rcases alloc_spec mt w hlen hwf hinv with
      ⟨herr, _⟩ | ⟨i, w', ha, _, _, _, _, _, hinv', _⟩
    · have hst : (allocRun mt w).2 = w := by
        simp only [allocRun, herr]
      rw [hst]
      exact hinv
    · have hst : (allocRun mt w).2 = w' := by
        simp only [allocRun, ha]
      rw [hst]
      exact hinv'
  · intro idx
    by_cases h1 : idx < 0
    · have hD : dealloc mt w idx = .error .InvalidIndex := by
        unfold dealloc
        rw [if_pos h1]
      have hst : (deallocRun mt w idx).2 = w := by
        simp only [deallocRun, hD]
      rw [hst]
      exact hinv
    · by_cases h2 : maxIndex mt < idx
      · have hD : dealloc mt w idx = .error .InvalidIndex := by
          unfold dealloc
          rw [if_neg h1, if_pos h2]
        have hst : (deallocRun mt w idx).2 = w := by
          simp only [deallocRun, hD]
        rw [hst]
        exact hinv
      · have hieq : ((idx.toNat : Nat) : Int) = idx :=
          Int.toNat_of_nonneg (by omega)
        have hicap : idx.toNat < capacity mt := by
          have hm := maxIndex_eq mt
          omega
        obtain ⟨w', hd, _, _, hpres, _, _⟩ :=
          dealloc_spec mt w hlen hwf idx.toNat hicap
        rw [hieq] at hd
        have hst : (deallocRun mt w idx).2 = w' := by
          simp only [deallocRun, hd]
        rw [hst]
        exact hpres hinv

theorem C2_invariant_preserved_witness :
    Inv .Small (allocRun .Small (zeroState .Small)).2 :=
  (C2_invariant_preserved .Small (zeroState .Small)
    (by rw [length_zeroState]) (zeroState_wf .Small) (zeroState_inv .Small)).1

/-- C6: for an allocator whose construction succeeded, `dealloc` returns
`InvalidIndex` exactly for negative indices and indices above the
geometry's maximum (4095 Small, 16383 Trade, 262143 Standard), and `Ok`
for every in-range index — the defensive `IndexOutOfBounds` branch never
fires. -/
theorem C6_dealloc_index_validation (mt : MemoryMapType) (w : List Nat)
    (hlen : reqWords mt ≤ w.length) (hwf : WF w) (index : Int) :
    (dealloc mt w index = .error .InvalidIndex ↔
      (index < 0 ∨ maxIndex mt < index)) ∧
    (0 ≤ index → index ≤ maxIndex mt →
      ∃ w', dealloc mt w index = .ok w') ∧
    maxIndex .Small = 4095 ∧ maxIndex .Trade = 16383 ∧
      maxIndex .Standard = 262143 := by
  have hok : ¬ index < 0 → ¬ maxIndex mt < index →
      ∃ w', dealloc mt w index = .ok w' := by
    intro h1 h2
    have hieq : ((index.toNat : Nat) : Int) = index :=
      Int.toNat_of_nonneg (by omega)
    have hicap : index.toNat < capacity mt := by
      have hm := maxIndex_eq mt
      omega
    obtain ⟨w', hd, _⟩ := dealloc_spec mt w hlen hwf index.toNat hicap
    rw [hieq] at hd
    exact ⟨w', hd⟩
  refine ⟨⟨?_, ?_⟩, ?_, rfl, rfl, rfl⟩
  · intro h
    by_contra hc
    push_neg at hc
    obtain ⟨w', hd⟩ := hok (by omega) (by omega)
    rw [hd] at h
    simp at h
  · intro h
    have hmnn : (0 : Int) ≤ maxIndex mt := by cases mt <;> decide
    rcases h with h1 | h2
    · unfold dealloc
      rw [if_pos h1]
    · unfold dealloc
      rw [if_neg (by omega), if_pos h2]
  · intro ha hb
    exact hok (by omega) (by omega)

theorem C6_dealloc_index_validation_witness :
    ∃ w', dealloc .Small (zeroState .Small) 0 = .ok w' :=
  (C6_dealloc_index_validation .Small (zeroState .Small)
    (by rw [length_zeroState]) (zeroState_wf .Small) 0).2.1
    (by decide) (by decide)

theorem and_mask_idem (x m : Nat) : (x &&& m) &&& m = x &&& m := by
  rw [Nat.and_assoc, Nat.and_self]

theorem reclear {w : List Nat} {a : Nat} (ha : a < w.length) (k : Nat)
    (hval : wd w a = wd w a &&& (UMAX - (1 <<< k))) :
    clearBitW w a k = w := by
  unfold clearBitW
  rw [← hval]
  exact set_wd_self ha

/-- C7: a successful `dealloc` is idempotent — calling it again with the
same index succeeds and leaves the buffer exactly as the first call left
it, so freeing an already-free index is a silent no-op. -/
theorem C7_dealloc_idempotent (mt : MemoryMapType) (w : List Nat)
    (index : Int) (w' : List Nat) (h : dealloc mt w index = .ok w') :
    dealloc mt w' index = .ok w' := by
  simp only [dealloc] at h ⊢
  split at h
  · exact absurd h (by simp)
  next h1 =>
    rw [if_neg h1]
    split at h
    · exact absurd h (by simp)
    next h2 =>
      rw [if_neg h2]
      split at h
      next hsm =>
        rw [if_pos hsm]
        split at h
        · exact absurd h (by simp)
        next hb =>
          rw [Except.ok.injEq] at h
          have hslt : 1 + (index.toNat >>> 6) < w.length := by omega
          have hne0 : ¬ (0 : Nat) = 1 + (index.toNat >>> 6) := by omega
          have hlw : w'.length = w.length := by
            rw [← h, length_clearBitW, length_clearBitW]
          rw [if_neg (by rw [hlw]; omega)]
          have hwds : wd w' (1 + (index.toNat >>> 6))
              = wd w (1 + (index.toNat >>> 6)) &&&
                (UMAX - (1 <<< (index.toNat &&& 0x3f))) := by
            rw [← h, wd_clearBitW_ne hne0, wd_clearBitW_self hslt]
          have hwd0 : wd w' 0
              = wd w 0 &&& (UMAX - (1 <<< (index.toNat >>> 6))) := by
            rw [← h,
              wd_clearBitW_self (by rw [length_clearBitW]; omega),
              wd_clearBitW_ne (fun hc => hne0 hc.symm)]
          have hstep1 : clearBitW w' (1 + (index.toNat >>> 6))
              (index.toNat &&& 0x3f) = w' :=
            reclear (by rw [hlw]; omega) _
              (by rw [hwds, and_mask_idem])
          have hstep2 : clearBitW w' 0 (index.toNat >>> 6) = w' :=
            reclear (by rw [hlw]; omega) _
              (by rw [hwd0, and_mask_idem])
          rw [hstep1, hstep2]
      next hsm =>
        rw [if_neg hsm]
        split at h
        · exact absurd h (by simp)
        next hb =>
          rw [Except.ok.injEq] at h
          push_neg at hb
          obtain ⟨hb1, hb2⟩ := hb
          have htlt : third_level_base mt + (index.toNat >>> 6) < w.length := by
            omega
          have hslt : 1 + (index.toNat >>> 12) < w.length := by omega
          have hne_st : ¬ (1 + (index.toNat >>> 12))
              = third_level_base mt + (index.toNat >>> 6) := by
            have h3 : has_third_level mt = true := by
              cases mt
              · rfl
              · rfl
              · exact absurd rfl hsm
            obtain ⟨htlb, hreq, hcap, hflbpos, hflb64, _⟩ := geom3 h3
            have hr6 := shiftRight6 index.toNat
            have hr12 := shiftRight12 index.toNat
            omega
          have hne0t : ¬ (0 : Nat)
              = third_level_base mt + (index.toNat >>> 6) := by
            have h3 : has_third_level mt = true := by
              cases mt
              · rfl
              · rfl
              · exact absurd rfl hsm
            obtain ⟨htlb, hreq, hcap, hflbpos, hflb64, _⟩ := geom3 h3
            omega
          have hne0s : ¬ (0 : Nat) = 1 + (index.toNat >>> 12) := by omega
          have hlw : w'.length = w.length := by
            rw [← h, length_clearBitW, length_clearBitW, length_clearBitW]
          rw [if_neg (by rw [hlw]; omega)]
          have hwdt : wd w' (third_level_base mt + (index.toNat >>> 6))
              = wd w (third_level_base mt + (index.toNat >>> 6)) &&&
                (UMAX - (1 <<< (index.toNat &&& 0x3f))) := by
            rw [← h, wd_clearBitW_ne hne0t, wd_clearBitW_ne hne_st,
              wd_clearBitW_self htlt]
          have hwds : wd w' (1 + (index.toNat >>> 12))
              = wd w (1 + (index.toNat >>> 12)) &&&
                (UMAX - (1 <<< ((index.toNat &&& 0xfff) >>> 6))) := by
            rw [← h, wd_clearBitW_ne hne0s,
              wd_clearBitW_self (by rw [length_clearBitW]; omega),
              wd_clearBitW_ne (fun hc => hne_st hc.symm)]
          have hwd0 : wd w' 0
              = wd w 0 &&& (UMAX - (1 <<< (index.toNat >>> 12))) := by
            rw [← h,
              wd_clearBitW_self
                (by rw [length_clearBitW, length_clearBitW]; omega),
              wd_clearBitW_ne (fun hc => hne0s hc.symm),
              wd_clearBitW_ne (fun hc => hne0t hc.symm)]
          have hstep1 : clearBitW w' (third_level_base mt + (index.toNat >>> 6))
              (index.toNat &&& 0x3f) = w' :=
            reclear (by rw [hlw]; omega) _
              (by rw [hwdt, and_mask_idem])
          have hstep2 : clearBitW w' (1 + (index.toNat >>> 12))
              ((index.toNat &&& 0xfff) >>> 6) = w' :=
            reclear (by rw [hlw]; omega) _
              (by rw [hwds, and_mask_idem])
          have hstep3 : clearBitW w' 0 (index.toNat >>> 12) = w' :=
            reclear (by rw [hlw]; omega) _
              (by rw [hwd0, and_mask_idem])
          rw [hstep1, hstep2, hstep3]

theorem C7_dealloc_idempotent_witness :
    dealloc .Small ((zeroState .Small).set 1 0) 0 = .ok ((zeroState .Small).set 1 0) :=
  C7_dealloc_idempotent .Small (zeroState .Small) 0
    ((zeroState .Small).set 1 0) (by rfl)

/-- C8: whenever `alloc` succeeds returning index `i`, immediately calling
`dealloc i` restores the buffer to exactly the state it had before the
alloc — dealloc-after-alloc is an exact round trip on the state. -/
theorem C8_dealloc_after_alloc (mt : MemoryMapType) (w : List Nat)
    (hwf : WF w) (i : Nat) (w' : List Nat) (h : alloc mt w = .ok (i, w')) :
    dealloc mt w' ((i : Int)) = .ok w := by
  rcases alloc_ok_cases mt w i w' h with
    ⟨hsm, f, s, hg1, hl1, hg2, hi, hw'⟩ |
    ⟨h3, f, s, t, hg1, hl1, hg2, hl2, hg3, hi, hw'⟩
  · subst hsm
    subst hi
    subst hw'
    obtain ⟨hf1, hf2, _⟩ := gfzb_ok hg1
    obtain ⟨hs1, hs2, _⟩ := gfzb_ok hg2
    exact roundtrip2 w hwf f s hf1 hf2 hs1 hs2 (by omega)
  · subst hi
    subst hw'
    obtain ⟨hf1, hf2, _⟩ := gfzb_ok hg1
    obtain ⟨hs1, hs2, _⟩ := gfzb_ok hg2
    obtain ⟨ht1, ht2, _⟩ := gfzb_ok hg3
    exact roundtrip3 mt h3 w hwf f s t hf1 hf2 hs1 hs2 ht1 ht2
      (by omega) (by omega)

theorem C8_dealloc_after_alloc_witness :
    dealloc .Small ((zeroState .Small).set 1 1) ((0 : Nat) : Int)
      = .ok (zeroState .Small) :=
  C8_dealloc_after_alloc .Small (zeroState .Small) (zeroState_wf .Small) 0
    ((zeroState .Small).set 1 1) (by rfl)

/-- C1: under the parent-full invariant, `alloc` on a buffer with a free
slot succeeds with the smallest free index, marking exactly that slot;
consequently repeated `alloc` from the all-zero buffer returns `0,1,2,…`
up to the capacity (4096 Small, 16384 Trade, 262144 Standard) and then
`NoAvailableSlots`; and after a successful `dealloc` the next `alloc`
returns the lowest currently-free index. -/
theorem C1_alloc_returns_smallest_free :
    (∀ (mt : MemoryMapType) (w : List Nat), reqWords mt ≤ w.length → WF w →
      Inv mt w → (∃ i, i < capacity mt ∧ ¬ slotAllocated mt w i) →
      ∃ i w', alloc mt w = .ok (i, w') ∧ i < capacity mt ∧
        ¬ slotAllocated mt w i ∧ (∀ j, j < i → slotAllocated mt w j) ∧
        (∀ j, j < capacity mt →
          (slotAllocated mt w' j ↔ slotAllocated mt w j ∨ j = i))) ∧
    (∀ (mt : MemoryMapType) (n : Nat), n < capacity mt →
      alloc mt (stateAfter mt n) = .ok (n, stateAfter mt (n + 1))) ∧
    (∀ mt : MemoryMapType,
      alloc mt (stateAfter mt (capacity mt)) = .error .NoAvailableSlots) ∧
    (capacity .Small = 4096 ∧ capacity .Trade = 16384 ∧
      capacity .Standard = 262144) ∧
    (∀ (mt : MemoryMapType) (w : List Nat) (i : Int) (w' : List Nat),
      reqWords mt ≤ w.length → WF w → Inv mt w →
      dealloc mt w i = .ok w' →
      ∃ j wa, alloc mt w' = .ok (j, wa) ∧ ¬ slotAllocated mt w' j ∧
        ∀ l, l < j → slotAllocated mt w' l) := by
  refine ⟨?_, alloc_at, alloc_at_capacity, ⟨by decide, by decide, by decide⟩, ?_⟩
  · intro mt w hlen hwf hinv hfree
    rcases alloc_spec mt w hlen hwf hinv with
      ⟨_, hall⟩ | ⟨i, w', ha, h1, h2, h3, _, _, _, h7, _, _⟩
    · obtain ⟨i, hi1, hi2⟩ := hfree
      exact absurd (hall i hi1) hi2
    · exact ⟨i, w', ha, h1, h2, h3, h7⟩
  · intro mt w i w' hlen hwf hinv hd
    have h1 : ¬ i < 0 := by
      intro hc
      unfold dealloc at hd
      rw [if_pos hc] at hd
      simp at hd
    have h2 : ¬ maxIndex mt < i := by
      intro hc
      unfold dealloc at hd
      rw [if_neg h1, if_pos hc] at hd
      simp at hd
    have hieq : ((i.toNat : Nat) : Int) = i := Int.toNat_of_nonneg (by omega)
    have hicap : i.toNat < capacity mt := by
      have hm := maxIndex_eq mt
      omega
    obtain ⟨w'', hd2, hlen2, hwf2, hpres, hslot2, _⟩ :=
      dealloc_spec mt w hlen hwf i.toNat hicap
    rw [hieq, hd] at hd2
    have hww : w' = w'' := by
      injection hd2
    subst hww
    have hfree : ¬ slotAllocated mt w' i.toNat := by
      rw [hslot2 i.toNat hicap]
      simp
    rcases alloc_spec mt w' (by rw [hlen2]; exact hlen) hwf2 (hpres hinv) with
      ⟨_, hall⟩ | ⟨j, wa, ha, _, hj2, hj3, _⟩
    · exact absurd (hall i.toNat hicap) hfree
    · exact ⟨j, wa, ha, hj2, hj3⟩

theorem C1_alloc_returns_smallest_free_witness :
    alloc .Small (stateAfter .Small 0) = .ok (0, stateAfter .Small 1) :=
  C1_alloc_returns_smallest_free.2.1 .Small 0 (by decide)

/-- C4: starting from the all-zero buffer, `N` successful `alloc` calls
return the indices `0..N-1`, and deallocating all `N` returned indices in
any order returns the bitmap to all-zero. -/
theorem C4_alloc_dealloc_all_roundtrip (mt : MemoryMapType) (N : Nat)
    (hN : N ≤ capacity mt) (ord : List Nat)
    (hperm : ord.Perm (List.range N)) :
    (∀ k, k < N →
      alloc mt (stateAfter mt k) = .ok (k, stateAfter mt (k + 1))) ∧
    deallocFold mt ord (stateAfter mt N) = zeroState mt := by
  constructor
  · intro k hk
    exact alloc_at mt k (by omega)
  · obtain ⟨hl, hw, hi, hs, hb⟩ := stateOk_all mt N hN
    have hres := dealloc_fold_clears mt ord (stateAfter mt N)
      (by rw [hl]) hw
      (fun i him => by
        have hr : i ∈ List.range N := hperm.mem_iff.mp him
        have := List.mem_range.mp hr
        omega)
      (fun a b hab => by
        obtain ⟨k, hk, hm⟩ := hb a b hab
        exact ⟨k, hperm.mem_iff.mpr (List.mem_range.mpr hk), hm⟩)
    exact eq_zeroState_of mt (by rw [hres.1, hl]) hres.2

theorem C4_alloc_dealloc_all_roundtrip_witness :
    deallocFold .Small [0] (stateAfter .Small 1) = zeroState .Small :=
  (C4_alloc_dealloc_all_roundtrip .Small 1 (by decide) [0]
    (by rw [show List.range 1 = [0] from rfl])).2

theorem std_word65 (k : Nat) (hk : k ≤ 64) :
    wd (stateAfter .Standard k) 65 = 2 ^ k - 1 := by
  have hcap : capacity .Standard = 262144 := by decide
  obtain ⟨hl, hw, hi, hs, hbits⟩ := stateOk_all .Standard k (by omega)
  apply Nat.eq_of_testBit_eq
  intro b
  rw [Nat.testBit_two_pow_sub_one]
  by_cases hb64 : b < 64
  · have hslot := hs b (by omega)
    simp only [slotAllocated, show has_third_level .Standard = true from rfl,
      if_true] at hslot
    have hb0 : b / 64 = 0 := by omega
    have hbm : b % 64 = b := by omega
    rw [hb0, hbm] at hslot
    rw [show third_level_base .Standard + 0 = 65 from rfl] at hslot
    by_cases hbk : b < k
    · rw [hslot.mpr hbk]
      simp [hbk]
    · have hfb : (wd (stateAfter .Standard k) 65).testBit b = false := by
        cases htb : (wd (stateAfter .Standard k) 65).testBit b
        · rfl
        · exact absurd (hslot.mp htb) hbk
      rw [hfb]
      simp [hbk]
  · rw [testBit_ge64 (hw 65) (by omega)]
    have : ¬ b < k := by omega
    simp [this]

theorem std_word_other (k : Nat) (hk : k ≤ 64) (a : Nat)
    (ha0 : ¬ a = 0) (ha1 : ¬ a = 1) (ha65 : ¬ a = 65) :
    wd (stateAfter .Standard k) a = 0 := by
  have hcap : capacity .Standard = 262144 := by decide
  obtain ⟨hl, hw, hi, hs, hbits⟩ := stateOk_all .Standard k (by omega)
  apply Nat.eq_of_testBit_eq
  intro b
  rw [Nat.zero_testBit]
  cases htb : (wd (stateAfter .Standard k) a).testBit b
  · rfl
  · exfalso
    obtain ⟨j, hj, hm⟩ := hbits a b htb
    simp only [clearPositions, show has_third_level .Standard = true from rfl,
      if_true, List.mem_cons, List.not_mem_nil, or_false, Prod.mk.injEq] at hm
    have htlb : third_level_base .Standard = 65 := rfl
    rcases hm with ⟨hm1, hm2⟩ | ⟨hm1, hm2⟩ | ⟨hm1, hm2⟩ <;> omega

theorem std_word1 (k : Nat) (hk : k ≤ 64) :
    wd (stateAfter .Standard k) 1 = if k = 64 then 1 else 0 := by
  have hcap : capacity .Standard = 262144 := by decide
  obtain ⟨hl, hw, hi, hs, hbits⟩ := stateOk_all .Standard k (by omega)
  have h65 := std_word65 k hk
  have hbit0 : (wd (stateAfter .Standard k) 1).testBit 0 = decide (k = 64) := by
    have hiv := hi.2 rfl 0 (by decide) 0 (by decide)
    rw [show (1 : Nat) + 0 = 1 from rfl,
      show third_level_base .Standard + (0 * 64 + 0) = 65 from rfl, h65] at hiv
    by_cases hk64 : k = 64
    · subst hk64
      rw [hiv.mpr rfl]
      simp
    · have hne : ¬ ((2 : Nat) ^ k - 1 = UMAX) := by
        have h2k : (2 : Nat) ^ k < 2 ^ 64 :=
          Nat.pow_lt_pow_right (by norm_num) (by omega)
        have hpos : 0 < (2 : Nat) ^ k := Nat.two_pow_pos k
        unfold UMAX
        omega
      cases htb : (wd (stateAfter .Standard k) 1).testBit 0
      · simp [hk64]
      · exact absurd (hiv.mp htb) hne
  apply Nat.eq_of_testBit_eq
  intro b
  by_cases hb0 : b = 0
  · subst hb0
    rw [hbit0]
    by_cases hk64 : k = 64
    · rw [if_pos hk64, show (1 : Nat).testBit 0 = true from by decide]
      simp [hk64]
    · rw [if_neg hk64, Nat.zero_testBit]
      simp [hk64]
  · have hL : (wd (stateAfter .Standard k) 1).testBit b = false := by
      cases htb : (wd (stateAfter .Standard k) 1).testBit b
      · rfl
      · exfalso
        obtain ⟨j, hj, hm⟩ := hbits 1 b htb
        simp only [clearPositions, show has_third_level .Standard = true from rfl,
          if_true, List.mem_cons, List.not_mem_nil, or_false, Prod.mk.injEq] at hm
        have htlb : third_level_base .Standard = 65 := rfl
        rcases hm with ⟨hm1, hm2⟩ | ⟨hm1, hm2⟩ | ⟨hm1, hm2⟩ <;> omega
    rw [hL]
    by_cases hk64 : k = 64
    · rw [if_pos hk64]
      have h1b : (1 : Nat).testBit b = false := by
        rw [show (1 : Nat) = 2 ^ 0 from rfl, Nat.testBit_two_pow]
        simp
        omega
      rw [h1b]
    · rw [if_neg hk64, Nat.zero_testBit]

theorem std_word0 (k : Nat) (hk : k ≤ 64) :
    wd (stateAfter .Standard k) 0 = 0 := by
  have hcap : capacity .Standard = 262144 := by decide
  obtain ⟨hl, hw, hi, hs, hbits⟩ := stateOk_all .Standard k (by omega)
  have hw1 := std_word1 k hk
  apply Nat.eq_of_testBit_eq
  intro b
  rw [Nat.zero_testBit]
  by_cases hb0 : b = 0
  · subst hb0
    have hiv := hi.1 0 (by decide)
    rw [show (1 : Nat) + 0 = 1 from rfl] at hiv
    have hne : wd (stateAfter .Standard k) 1 ≠ UMAX := by
      rw [hw1]
      by_cases hk64 : k = 64
      · rw [if_pos hk64]
        decide
      · rw [if_neg hk64]
        decide
    cases htb : (wd (stateAfter .Standard k) 0).testBit 0
    · rfl
    · exact absurd (hiv.mp htb) hne
  · cases htb : (wd (stateAfter .Standard k) 0).testBit b
    · rfl
    · exfalso
      obtain ⟨j, hj, hm⟩ := hbits 0 b htb
      simp only [clearPositions, show has_third_level .Standard = true from rfl,
        if_true, List.mem_cons, List.not_mem_nil, or_false, Prod.mk.injEq] at hm
      have htlb : third_level_base .Standard = 65 := rfl
      rcases hm with ⟨hm1, hm2⟩ | ⟨hm1, hm2⟩ | ⟨hm1, hm2⟩ <;> omega

/-- Literal statement of claim C9 for the Max geometry (`Standard`):
allocations 0..63 change no word other than mid-word[0] (word index 1);
mid-word[0] is entirely 1 after 64 allocations; top-word bit 0 is 1 at
that point and not after the first allocation. -/
def C9claim : Prop :=
  (∀ k, k < 64 → ∀ a, ¬ a = 1 →
    wd (stateAfter .Standard (k + 1)) a = wd (stateAfter .Standard k) a) ∧
  wd (stateAfter .Standard 64) 1 = UMAX ∧
  (wd (stateAfter .Standard 64) 0).testBit 0 = true ∧
  (wd (stateAfter .Standard 1) 0).testBit 0 = false

/-- C9 counterexample: the claim, read literally for the Max geometry, is
false — after 64 allocations mid-word[0] holds `1` (only its bit 0 is
set), not `u64::MAX`, because the first 64 allocations fill the leaf word
(index 65), not mid-word[0]. -/
theorem C9_counterexample : ¬ C9claim := by
  intro hc
  have hB := hc.2.1
  rw [std_word1 64 (Nat.le_refl 64), if_pos rfl] at hB
  exact (by decide : ¬ (1 : Nat) = UMAX) hB

/-- C9 amended: in the Max geometry, allocations 0..63 change only the
leaf word (index 65) and mid-word[0] (index 1); bit 0 of mid-word[0]
becomes 1 only once the leaf word is entirely 1 — after 64 allocations in
that group, not after the first — and the top word stays 0 throughout. -/
theorem C9_amended :
    (∀ k, k < 64 → ∀ a, ¬ a = 1 → ¬ a = 65 →
      wd (stateAfter .Standard (k + 1)) a = wd (stateAfter .Standard k) a) ∧
    (∀ k, k ≤ 64 →
      ((wd (stateAfter .Standard k) 1).testBit 0 = true ↔
        wd (stateAfter .Standard k) 65 = UMAX)) ∧
    wd (stateAfter .Standard 64) 65 = UMAX ∧
    wd (stateAfter .Standard 64) 1 = 1 ∧
    wd (stateAfter .Standard 1) 65 = 1 ∧
    wd (stateAfter .Standard 1) 1 = 0 ∧
    (∀ k, k ≤ 64 → wd (stateAfter .Standard k) 0 = 0) := by
  refine ⟨?_, ?_, ?_, ?_, ?_, ?_, ?_⟩
  · intro k hk a ha1 ha65
    by_cases ha0 : a = 0
    · subst ha0
      rw [std_word0 (k + 1) (by omega), std_word0 k (by omega)]
    · rw [std_word_other (k + 1) (by omega) a ha0 ha1 ha65,
        std_word_other k (by omega) a ha0 ha1 ha65]
  · intro k hk
    have hcap : capacity .Standard = 262144 := by decide
    obtain ⟨hl, hw, hi, hs, hbits⟩ := stateOk_all .Standard k (by omega)
    have hiv := hi.2 rfl 0 (by decide) 0 (by decide)
    rw [show (1 : Nat) + 0 = 1 from rfl,
      show third_level_base .Standard + (0 * 64 + 0) = 65 from rfl] at hiv
    exact hiv
  · rw [std_word65 64 (Nat.le_refl 64)]
    rfl
  · rw [std_word1 64 (Nat.le_refl 64), if_pos rfl]
  · rw [std_word65 1 (by omega)]
    rfl
  · rw [std_word1 1 (by omega), if_neg (by omega)]
  · intro k hk
    exact std_word0 k hk

theorem C9_amended_witness :
    wd (stateAfter .Standard 1) 2 = wd (stateAfter .Standard 0) 2 :=
  C9_amended.1 0 (by decide) 2 (by decide) (by decide)

end MemAlloc
